import Mathlib

/-!
Verification of the schema-driven content engine (ServiceUp): a shallow
embedding of the entry-normalization, title-derivation, relation-resolution,
view-layout-compiler and repeater/visibility code, with theorems checking the
natural-language specification against it.

Modelling conventions:
* JavaScript values are modelled by `JVal` (JSON-like data; numerics are
  restricted to integers, since the behaviours under scrutiny never depend on
  non-integral numbers).
* `undefined` is modelled as `Option.none`; objects are association lists
  whose lookups take the first match, mirroring unique-key JS objects.
* Assigning `undefined` to an object key is modelled as deletion, which agrees
  with the `=== undefined` tests and JSON serialisation the code relies on.
-/

/-- JSON-like runtime values (integer numerics). -/
inductive JVal where
  | vnull : JVal
  | vbool : Bool → JVal
  | vnum : Int → JVal
  | vstr : String → JVal
  | varr : List JVal → JVal
  | vobj : List (String × JVal) → JVal
deriving Repr

/-- Object model: association list, first match wins (JS objects have unique
keys; all constructors below preserve that). -/
abbrev JObj := List (String × JVal)

/-- `obj[k]`: first-match lookup; `none` models `undefined`. -/
def objGet (o : JObj) (k : String) : Option JVal :=
  match o with
  | [] => none
  | (k', v) :: rest => if k' = k then some v else objGet rest k

/-- `obj[k] = v`: overwrite the first occurrence in place, else append
(JS keeps the original insertion position on reassignment). -/
def objSet (o : JObj) (k : String) (v : JVal) : JObj :=
  match o with
  | [] => [(k, v)]
  | (k', v') :: rest => if k' = k then (k, v) :: rest else (k', v') :: objSet rest k v

/-- `delete obj[k]`. -/
def objDel (o : JObj) (k : String) : JObj :=
  o.filter (fun kv => kv.1 ≠ k)

/-- JS truthiness of a possibly-undefined value. -/
def jsTruthy : Option JVal → Bool
  | none => false
  | some .vnull => false
  | some (.vbool b) => b
  | some (.vnum n) => n ≠ 0
  | some (.vstr s) => s ≠ ""
  | some (.varr _) => true
  | some (.vobj _) => true

/-- `a || b` on possibly-undefined values. -/
def jsOr (a : Option JVal) (b : JVal) : JVal :=
  match a with
  | some v => if jsTruthy (some v) then v else b
  | none => b

/-- `a || b` for optional strings ("" is falsy). -/
def jsOrStr (a : Option String) (b : String) : String :=
  match a with
  | some s => if s = "" then b else s
  | none => b

mutual
/-- JS `String(v)` on defined values. -/
def jsStringTop : JVal → String
  | .vnull => "null"
  | .vbool b => if b then "true" else "false"
  | .vnum n => toString n
  | .vstr s => s
  | .varr xs => String.intercalate "," (jsArrElems xs)
  | .vobj _ => "[object Object]"

/-- Elements of `Array.prototype.join`: `null`/`undefined` become "". -/
def jsArrElems : List JVal → List String
  | [] => []
  | v :: vs => (match v with
      | .vnull => ""
      | w => jsStringTop w) :: jsArrElems vs
end

/-- JS `String(v)` with the `v == null ? "" : String(v)` guard used by the
visibility comparator. -/
def cmpStr : Option JVal → String
  | none => ""
  | some .vnull => ""
  | some v => jsStringTop v

/-- Digits of a decimal literal, `none` on any non-digit or the empty list. -/
def digitsToNat : List Char → Option Nat
  | [] => none
  | cs => if cs.all Char.isDigit then
      some (cs.foldl (fun acc c => acc * 10 + (c.toNat - 48)) 0)
    else none

/-- JS whitespace test (the ASCII fragment). -/
def wsChar (c : Char) : Bool :=
  c = ' ' || c = '\t' || c = '\n' || c = '\r'

/-- Trim (our own list-level version of `String.prototype.trim`). -/
def trimChars (l : List Char) : List Char :=
  ((l.dropWhile wsChar).reverse.dropWhile wsChar).reverse

def trimStr (s : String) : String :=
  String.mk (trimChars s.toList)

/-- `Number(s)` on strings, integer fragment: trimmed empty string is 0,
optionally signed digit runs parse, anything else is NaN (`none`). -/
def parseJsNumber (s : String) : Option Int :=
  match trimChars s.toList with
  | [] => some 0
  | '+' :: rest => (digitsToNat rest).map Int.ofNat
  | '-' :: rest => (digitsToNat rest).map (fun n => -(n : Int))
  | cs => (digitsToNat cs).map Int.ofNat

/-- JS `Number(v)`: `undefined` is NaN, `null` is 0, booleans are 0/1,
arrays and objects coerce through their string form. -/
def jsNumber : Option JVal → Option Int
  | none => none
  | some .vnull => some 0
  | some (.vbool b) => some (if b then 1 else 0)
  | some (.vnum n) => some n
  | some (.vstr s) => parseJsNumber s
  | some (.varr xs) => parseJsNumber (jsStringTop (.varr xs))
  | some (.vobj _) => none

/-- Lexicographic (code-unit) string `<`, as JS `sa < sb`. -/
def charListLt : List Char → List Char → Bool
  | [], [] => false
  | [], _ :: _ => true
  | _ :: _, [] => false
  | a :: as, b :: bs =>
    if a < b then true
    else if b < a then false
    else charListLt as bs

def strLtJs (a b : String) : Bool :=
  charListLt a.toList b.toList

/-- `toLowerCase` (all Char-level, so it computes by kernel reduction). -/
def toLowerStr (s : String) : String :=
  String.mk (s.toList.map Char.toLower)

/-! ## Repeater conditional-visibility engine (admin/src/components/FieldInput.jsx) -/

/-- `isEmptyValue` from FieldInput.jsx: null/undefined, blank string, empty
array and keyless object count as empty. -/
def isEmptyValue : Option JVal → Bool
  | none => true
  | some .vnull => true
  | some (.vstr s) => trimStr s = ""
  | some (.varr xs) => xs.isEmpty
  | some (.vobj fs) => fs.isEmpty
  | some (.vbool _) => false
  | some (.vnum _) => false

/-- A visibility rule as stored in a repeater config (`cfg.rules[i]`). -/
structure VisRule where
  ifKey : Option String
  op : Option String
  value : Option JVal
  action : Option String
  targets : Option (List String)
deriving Repr

/-- `String(rule?.op || "equals").trim()`. -/
def ruleOp (r : VisRule) : String :=
  trimStr (jsOrStr r.op "equals")

/-- `String(rule?.ifKey || "").trim()`. -/
def ruleIfKey (r : VisRule) : String :=
  trimStr (r.ifKey.getD "")

/-- `String(r?.action || "show")` (note: not trimmed in the source). -/
def ruleAction (r : VisRule) : String :=
  jsOrStr r.action "show"

/-- A repeater row: flat key→value object. -/
abbrev Row := JObj

/-- `ifKey ? row?.[ifKey] : undefined`. -/
def ruleActual (row : Row) (r : VisRule) : Option JVal :=
  if ruleIfKey r ≠ "" then objGet row (ruleIfKey r) else none

/-- Case-insensitive substring test (`sa.toLowerCase().includes(sb.toLowerCase())`). -/
def hasSubstr (s pat : String) : Bool :=
  go s.toList pat.toList
where
  go : List Char → List Char → Bool
    | l, p => p.isPrefixOf l || (match l with
        | [] => false
        | _ :: rest => go rest p)

/-- `evalRule` from FieldInput.jsx. -/
def evalRule (row : Row) (r : VisRule) : Bool :=
  let op := ruleOp r
  let actual := ruleActual row r
  if op = "truthy" then !(isEmptyValue actual)
  else if op = "falsy" then isEmptyValue actual
  else
    let sa := cmpStr actual
    let sb := cmpStr r.value
    let na := jsNumber actual
    let nb := jsNumber r.value
    if op = "equals" then sa = sb
    else if op = "not_equals" then sa ≠ sb
    else if op = "contains" then hasSubstr (toLowerStr sa) (toLowerStr sb)
    else if op = "not_contains" then !(hasSubstr (toLowerStr sa) (toLowerStr sb))
    else if op = "gt" then
      match na, nb with
      | some a, some b => a > b
      | _, _ => strLtJs sb sa
    else if op = "gte" then
      match na, nb with
      | some a, some b => a ≥ b
      | _, _ => !(strLtJs sa sb)
    else if op = "lt" then
      match na, nb with
      | some a, some b => a < b
      | _, _ => strLtJs sa sb
    else if op = "lte" then
      match na, nb with
      | some a, some b => a ≤ b
      | _, _ => !(strLtJs sb sa)
    else sa = sb

/-- A declared repeater subfield (only the properties the engine reads). -/
structure SubfieldDef where
  field_key : Option String
  key : Option String
  type : Option String
deriving Repr, DecidableEq

/-- `String(sf?.field_key || sf?.key || "").trim()`. -/
def sfKey (sf : SubfieldDef) : String :=
  trimStr (jsOrStr sf.field_key (jsOrStr sf.key ""))

/-- The visibility table, in JS-object form. -/
abbrev VisMap := List (String × Bool)

def visGet (m : VisMap) (k : String) : Option Bool :=
  match m with
  | [] => none
  | (k', b) :: rest => if k' = k then some b else visGet rest k

def visSet (m : VisMap) (k : String) (b : Bool) : VisMap :=
  match m with
  | [] => [(k, b)]
  | (k', b') :: rest => if k' = k then (k, b) :: rest else (k', b') :: visSet rest k b

/-- The targets a rule acts on, after the source's trim/blank filtering. -/
def ruleTargetKeys (r : VisRule) : List String :=
  ((r.targets.getD []).map trimStr).filter (fun k => k ≠ "")

/-- Apply one rule's action to its target keys. -/
def applyRuleTargets (vis : VisMap) (r : VisRule) : VisMap :=
  (ruleTargetKeys r).foldl (fun vis k => visSet vis k (ruleAction r ≠ "hide")) vis

/-- `computeSubfieldVisibility` from FieldInput.jsx. -/
def computeSubfieldVisibility (subfields : List SubfieldDef) (rules : Option (List VisRule))
    (row : Row) : VisMap :=
  let init := subfields.foldl (fun vis sf =>
    if sfKey sf ≠ "" then visSet vis (sfKey sf) true else vis) []
  (rules.getD []).foldl (fun vis r =>
    if evalRule row r then applyRuleTargets vis r else vis) init

/-- The declared subfield keys that get a visibility entry. -/
def declaredKeys (subfields : List SubfieldDef) : List String :=
  (subfields.map sfKey).filter (fun k => k ≠ "")

/-- Spec-side reading of the rule pipeline: the last matching rule that names
`k` decides, `show` meaning visible. -/
def lastRuleVerdict (rules : List VisRule) (row : Row) (k : String) : Option Bool :=
  (rules.reverse.find? (fun r => evalRule row r && decide (k ∈ ruleTargetKeys r))).map
    (fun r => ruleAction r ≠ "hide")

/-! ## Repeater row operations (RepeaterField in FieldInput.jsx) -/

/-- The numeric bounds a repeater reads from its config
(`Number.isFinite(cfg.minRows) ? Number(cfg.minRows) : null`, same for max). -/
structure RepBounds where
  minRows : Option Int
  maxRows : Option Int
deriving Repr, DecidableEq

/-- `addRow`: appends an empty row unless the count already reached `maxRows`. -/
def addRow (b : RepBounds) (rows : List Row) : List Row :=
  match b.maxRows with
  | some m => if (rows.length : Int) ≥ m then rows else rows ++ [[]]
  | none => rows ++ [[]]

/-- `removeRow(i)`: filters out index `i` unless the count is at `minRows`. -/
def removeRow (b : RepBounds) (i : Nat) (rows : List Row) : List Row :=
  match b.minRows with
  | some m => if (rows.length : Int) ≤ m then rows else rows.eraseIdx i
  | none => rows.eraseIdx i

/-- User operations on the row sequence considered by the invariant. -/
inductive RepOp where
  | append : RepOp
  | remove : Nat → RepOp
deriving Repr, DecidableEq

def applyRepOp (b : RepBounds) (rows : List Row) : RepOp → List Row
  | .append => addRow b rows
  | .remove i => removeRow b i rows

def applyRepOps (b : RepBounds) (rows : List Row) (ops : List RepOp) : List Row :=
  ops.foldl (applyRepOp b) rows

/-! ## Subfield cell rendering (renderSubfieldCell in FieldInput.jsx) -/

/-- What a subfield cell renders to: nothing (null), the inert
nested-repeater placeholder, or an actual `FieldInput` bound to the row key
(the only outcome that can write row data; it receives depth+1). -/
inductive CellOutcome where
  | nothing : CellOutcome
  | inertPlaceholder : Int → CellOutcome
  | fieldInput : String → Option JVal → Int → CellOutcome
deriving Repr

/-- `String(def.type || "text").toLowerCase()`. -/
def sfType (sf : SubfieldDef) : String :=
  toLowerStr (jsOrStr sf.type "text")

/-- `renderSubfieldCell` from FieldInput.jsx, as a pure outcome function.
Inputs mirror the closure state: the repeater's declared subfields, its rules,
the current row, its own `depth` and configured `maxDepth`. -/
def renderSubfieldCell (subfields : List SubfieldDef) (rules : Option (List VisRule))
    (row : Row) (sf : SubfieldDef) (depth maxDepth : Int) : CellOutcome :=
  let key := sfKey sf
  if key = "" then .nothing
  else
    let visibility := computeSubfieldVisibility subfields rules row
    if visGet visibility key = some false then .nothing
    else if sfType sf = "repeater" && !(depth < maxDepth) then .inertPlaceholder depth
    else .fieldInput key (objGet row key) (depth + 1)

/-- Data keys a rendered cell can ever write into the row. -/
def cellDataKeys : CellOutcome → List String
  | .nothing => []
  | .inertPlaceholder _ => []
  | .fieldInput k _ _ => [k]

/-! ## Editor view layout compiler (buildLayoutFromView, client part_001) -/

/-- A raw field object on `contentType.fields` (only the properties read). -/
structure FieldObj where
  field_key : Option String
  key : Option String
  type : Option String
deriving Repr, DecidableEq

/-- A normalised field: `{ ...f, key }` with `key = f.field_key || f.key`. -/
structure NField where
  base : FieldObj
  key : String
deriving Repr, DecidableEq

/-- A content type as the compiler sees it; a `none` list element models a
falsy array entry. -/
structure CType where
  fields : Option (List (Option FieldObj))
deriving Repr, DecidableEq

/-- The `rawFields.map(...).filter(Boolean)` normalisation. -/
def normFields (ct : CType) : List NField :=
  (ct.fields.getD []).filterMap (fun f? =>
    match f? with
    | none => none
    | some f =>
      let key := jsOrStr f.field_key (jsOrStr f.key "")
      if key = "" then none else some ⟨f, key⟩)

/-- `fieldsByKey[key]`: assignment in order means the last field with a key
wins. -/
def lookupFieldByKey (fields : List NField) (k : String) : Option NField :=
  (fields.filter (fun f => f.key = k)).getLast?

/-- A field reference inside a configured section (`sec.fields[i]`). -/
inductive FieldRefCfg where
  | strRef : String → FieldRefCfg
  | objRef (key field_key field id : Option String)
      (width colSpan : Option Int) (visible : Option Bool) : FieldRefCfg
  | otherRef : FieldRefCfg
deriving Repr, DecidableEq

/-- A configured section. `layout` is `some` only when the stored value is a
string; `columns` carries the raw number (`Number.isInteger` filtered). -/
structure SectionCfg where
  id : Option String
  title : Option String
  layout : Option String
  columns : Option Int
  fields : Option (List FieldRefCfg)
deriving Repr, DecidableEq

/-- A view config; `sections` is `some` only when the stored value is an
array (`Array.isArray`). -/
structure ViewCfg where
  sections : Option (List SectionCfg)
deriving Repr, DecidableEq

/-- The resolved definition placed on a row: a content-type field or the
built-in placeholder `{key, type: "builtin"}`. -/
inductive RowDef where
  | fieldDef : NField → RowDef
  | builtin : String → RowDef
deriving Repr, DecidableEq

structure LayoutRow where
  def_ : RowDef
  width : Int
deriving Repr, DecidableEq

structure SectionOut where
  id : String
  title : String
  columns : Int
  rows : List LayoutRow
deriving Repr, DecidableEq

/-- Column count: `layout` keyword scan then explicit integer `columns`. -/
def sectionColumns (sec : SectionCfg) : Int :=
  let c1 : Int := 1
  let c2 := match sec.layout with
    | some s =>
      let a := if hasSubstr s "two" then 2 else c1
      if hasSubstr s "three" then 3 else a
    | none => c1
  match sec.columns with
  | some n => if n ≠ 0 then n else c2
  | none => c2

/-- One field reference compiled to a row (or skipped). -/
def compileFieldRef (fields : List NField) (ref : FieldRefCfg) : Option LayoutRow :=
  let keyOpt : Option String := match ref with
    | .strRef s => some s
    | .objRef k fk fd i _ _ _ => some (jsOrStr k (jsOrStr fk (jsOrStr fd (jsOrStr i ""))))
    | .otherRef => none
  let width : Int := match ref with
    | .objRef _ _ _ _ w cs _ =>
      (match w with
       | some n => if n ≠ 0 then n else (match cs with
           | some m => if m ≠ 0 then m else 1
           | none => 1)
       | none => (match cs with
           | some m => if m ≠ 0 then m else 1
           | none => 1))
    | _ => 1
  let visible : Bool := match ref with
    | .objRef _ _ _ _ _ _ (some b) => b
    | _ => true
  match keyOpt with
  | none => none
  | some key =>
    if key = "" || !visible then none
    else
      let d := match lookupFieldByKey fields key with
        | some f => RowDef.fieldDef f
        | none => RowDef.builtin key
      some ⟨d, width⟩

/-- One configured section compiled; dropped when it yields no rows. -/
def compileSection (fields : List NField) (sec : SectionCfg) : Option SectionOut :=
  let rows := (sec.fields.getD []).filterMap (compileFieldRef fields)
  if rows = [] then none
  else some ⟨jsOrStr sec.id "section", jsOrStr sec.title "Section", sectionColumns sec, rows⟩

/-- The synthesized all-fields fallback section. -/
def allFieldsSection (fields : List NField) : SectionOut :=
  ⟨"main", "Fields", 1, fields.map (fun f => ⟨.fieldDef f, 1⟩)⟩

/-- `buildLayoutFromView` from the client (part_001). -/
def buildLayoutFromView (ct : Option CType) (vc : Option ViewCfg) : List SectionOut :=
  match ct with
  | none => []
  | some ct =>
    let fields := normFields ct
    let cfgSections := vc.bind (fun v => v.sections)
    let hasAnyViewSectionsConfig := cfgSections.isSome
    let sections := match cfgSections with
      | some secs => if secs ≠ [] then secs.filterMap (compileSection fields) else []
      | none => []
    if sections = [] && fields ≠ [] && !hasAnyViewSectionsConfig then
      [allFieldsSection fields]
    else sections

/-! ## Title template engine (part_000: getByPath / asPrettyInline /
deriveTitleFromTemplate) -/

/-- Canonical decimal array index (JS `a["07"]` is not an element access). -/
def canonIndex (p : String) : Option Nat :=
  match p.toList with
  | [] => none
  | ['0'] => some 0
  | c :: rest =>
    if c ≠ '0' && (c :: rest).all Char.isDigit then digitsToNat (c :: rest) else none

/-- One step of `cur = cur[p]` (with the `cur == null` guard before it). -/
def pathStep (cur : Option JVal) (p : String) : Option JVal :=
  match cur with
  | none => none
  | some .vnull => none
  | some (.vobj fs) => objGet fs p
  | some (.varr xs) =>
    if p = "length" then some (.vnum xs.length)
    else match canonIndex p with
      | some n => xs.get? n
      | none => none
  | some (.vstr s) =>
    if p = "length" then some (.vnum s.length)
    else match canonIndex p with
      | some n => (s.toList.get? n).map (fun c => .vstr (String.singleton c))
      | none => none
  | some (.vbool _) => none
  | some (.vnum _) => none

/-- Split a char list at every separator hit (JS `String.prototype.split`
with a single-char separator). -/
def splitChars (p : Char → Bool) : List Char → List (List Char)
  | [] => [[]]
  | c :: cs =>
    let r := splitChars p cs
    if p c then [] :: r
    else
      match r with
      | [] => [[c]]
      | g :: gs => (c :: g) :: gs

/-- The dotted path split (`split('.').map(trim).filter(Boolean)`). -/
def pathParts (path : String) : List String :=
  (((splitChars (fun c => c = '.') path.toList).map
    (fun l => trimStr (String.mk l)))).filter (fun s => s ≠ "")

/-- `getByPath` from part_000. -/
def getByPath (obj : Option JVal) (path : String) : Option JVal :=
  if path = "" then none
  else (pathParts path).foldl pathStep obj

def jsonEscapeChar (c : Char) : String :=
  if c = '"' then "\\\""
  else if c = '\\' then "\\\\"
  else if c = '\n' then "\\n"
  else if c = '\t' then "\\t"
  else if c = '\r' then "\\r"
  else String.singleton c

def jsonEscape (s : String) : String :=
  String.join (s.toList.map jsonEscapeChar)

mutual
/-- `JSON.stringify` on JSON data (the compact last-resort rendering). -/
def jsonStringify : JVal → String
  | .vnull => "null"
  | .vbool b => if b then "true" else "false"
  | .vnum n => toString n
  | .vstr s => "\"" ++ jsonEscape s ++ "\""
  | .varr xs => "[" ++ String.intercalate "," (jsonList xs) ++ "]"
  | .vobj fs => "\x7b" ++ String.intercalate "," (jsonPairs fs) ++ "\x7d"

def jsonList : List JVal → List String
  | [] => []
  | v :: vs => jsonStringify v :: jsonList vs

def jsonPairs : List (String × JVal) → List String
  | [] => []
  | (k, v) :: rest => ("\"" ++ jsonEscape k ++ "\":" ++ jsonStringify v) :: jsonPairs rest
end

/-- The name-shaped-object rendering in `asPrettyInline`. -/
def renderNameShape (fs : JObj) : String :=
  let pushVal (k : String) : List String :=
    let v := jsOr (objGet fs k) (.vstr "")
    if jsTruthy (some v) then [jsStringTop v] else []
  let bits := pushVal "title" ++ pushVal "first" ++ pushVal "middle" ++ pushVal "last"
  let out := trimStr (String.intercalate " " bits)
  let suffixV := jsOr (objGet fs "suffix") (.vstr "")
  if jsTruthy (some suffixV) then trimStr (out ++ " " ++ jsStringTop suffixV) else out

/-- Does the object carry any of the name-field keys (`hasOwnProperty`)? -/
def looksLikeName (fs : JObj) : Bool :=
  (objGet fs "first").isSome || (objGet fs "last").isSome ||
  (objGet fs "middle").isSome || (objGet fs "title").isSome ||
  (objGet fs "suffix").isSome

mutual
/-- `asPrettyInline` from part_000, on defined values. -/
def prettyV : JVal → String
  | .vnull => ""
  | .vbool b => if b then "true" else "false"
  | .vnum n => toString n
  | .vstr s => s
  | .varr xs =>
    String.intercalate ", " ((prettyElems xs).filter (fun s => s ≠ ""))
  | .vobj fs =>
    if looksLikeName fs then renderNameShape fs else jsonStringify (.vobj fs)

def prettyElems : List JVal → List String
  | [] => []
  | v :: vs => prettyV v :: prettyElems vs
end

/-- `asPrettyInline` including the `value == null` guard (`none` models
`undefined`). -/
def asPrettyInline : Option JVal → String
  | none => ""
  | some v => prettyV v

/-- Rendering of one matched `{token}` capture. -/
def renderTok (data : Option JVal) (tok : List Char) : List Char :=
  let token := trimStr (String.mk tok)
  if token = "" then [] else (asPrettyInline (getByPath data token)).toList

theorem dropWhileLenLe {α : Type} (p : α → Bool) (l : List α) :
    (l.dropWhile p).length ≤ l.length := by
  induction l with
  | nil => simp [List.dropWhile]
  | cons a l ih =>
    by_cases h : p a
    · simp only [List.dropWhile, h, List.length_cons]
      omega
    · simp [List.dropWhile, h]

theorem dropWhileConsLt {α : Type} {p : α → Bool} {cs rest2 : List α} {d : α}
    (h : cs.dropWhile p = d :: rest2) : rest2.length < cs.length := by
  have h1 := dropWhileLenLe p cs
  rw [h] at h1
  simp only [List.length_cons] at h1
  omega

/-- The `tpl.replace(/\x7b([^\x7d]+)\x7d/g, ...)` scan: a token opens at a
brace, runs to the next closing brace, and must be non-empty; anything else is
copied through (mirroring the regex engine's left-to-right, non-overlapping
matching). Recursion is by fuel so the definition reduces in the kernel;
every recursive call consumes at least one character, so fuel equal to the
input length (as set in `renderTokens`) is never exhausted. -/
def renderTokensF (data : Option JVal) : Nat → List Char → List Char
  | _, [] => []
  | 0, _ :: _ => []
  | fuel + 1, c :: cs =>
    if c = '\x7b' then
      match cs.dropWhile (fun d => d ≠ '\x7d') with
      | [] => c :: renderTokensF data fuel cs
      | _ :: rest2 =>
        let tok := cs.takeWhile (fun d => d ≠ '\x7d')
        if tok = [] then c :: renderTokensF data fuel cs
        else renderTok data tok ++ renderTokensF data fuel rest2
    else c :: renderTokensF data fuel cs

def renderTokens (data : Option JVal) (l : List Char) : List Char :=
  renderTokensF data l.length l

/-- `/\s+/g → " "` whitespace-run collapsing: a whitespace char followed by
another whitespace char is dropped; a run's last whitespace char becomes a
single space. -/
def collapseWs : List Char → List Char
  | [] => []
  | [c] => if wsChar c then [' '] else [c]
  | c :: d :: cs =>
    if wsChar c && wsChar d then collapseWs (d :: cs)
    else (if wsChar c then ' ' else c) :: collapseWs (d :: cs)

/-- `deriveTitleFromTemplate` from part_000. -/
def deriveTitleFromTemplate (template : Option String) (data : Option JVal) : String :=
  let tpl := template.getD ""
  if trimStr tpl = "" then ""
  else trimStr (String.mk (collapseWs (renderTokens data tpl.toList)))

/-! ## Entry normalization (normalizeEntryData, part_000) -/

/-- The camelCase alias of a snake_case key: the `/_([a-z])/g` rewrite. -/
def camelChars : List Char → List Char
  | [] => []
  | '_' :: c :: rest =>
    if c.isLower then c.toUpper :: camelChars rest
    else '_' :: camelChars (c :: rest)
  | c :: rest => c :: camelChars rest

def camelize (s : String) : String :=
  String.mk (camelChars s.toList)

/-- A field definition row as the server reads it (`field_key AS key, type`). -/
structure FieldDef where
  key : String
  type : String
deriving Repr, DecidableEq

/-- The camelCase-alias pass: for each field, move `out[camel]` to
`out[snake]` when the alias is defined and the canonical key is not. -/
def moveAliasStep (out : JObj) (f : FieldDef) : JObj :=
  let snake := f.key
  let camel := camelize snake
  match objGet out camel, objGet out snake with
  | some v, none => objDel (objSet out snake v) camel
  | _, _ => out

def moveAliases (fds : List FieldDef) (out : JObj) : JObj :=
  fds.foldl moveAliasStep out

/-- The four type canonicalizers imported from `lib/fieldUtils.js` (not part
of this tree), as an abstract interface: each takes the possibly-undefined
stored value and may fail (throw). -/
structure Canonicalizers where
  email : Option JVal → Except Unit (Option JVal)
  phone : Option JVal → Except Unit (Option JVal)
  url : Option JVal → Except Unit (Option JVal)
  address : Option JVal → Except Unit (Option JVal)

/-- Which canonicalizer the `switch (t)` picks, if any. -/
def canonFor (C : Canonicalizers) (t : String) :
    Option (Option JVal → Except Unit (Option JVal)) :=
  if t = "email" then some C.email
  else if t = "phone" then some C.phone
  else if t = "url" then some C.url
  else if t = "address" then some C.address
  else none

/-- `out[k] = w` where `w` may be `undefined` (which, for every later
`=== undefined` test and for JSON persistence, behaves as absence). -/
def objSetOpt (out : JObj) (k : String) : Option JVal → JObj
  | some v => objSet out k v
  | none => objDel out k

/-- The canonicalization pass (second loop of `normalizeEntryData`); an
`Except.error` models a thrown exception. -/
def canonPhase (C : Canonicalizers) (fds : List FieldDef) (out : JObj) :
    Except Unit JObj :=
  fds.foldlM (fun out f =>
    match canonFor C f.type with
    | none => Except.ok out
    | some g => (g (objGet out f.key)).map (objSetOpt out f.key)) out

/-- `normalizeEntryData` from part_000: alias pass, then canonicalizer pass,
the whole body inside `try { ... } catch { return dataIn; }`. -/
def normalizeEntryData (C : Canonicalizers) (fds : List FieldDef) (dataIn : JObj) : JObj :=
  match canonPhase C fds (moveAliases fds dataIn) with
  | Except.ok out => out
  | Except.error _ => dataIn

/-- Modelled from the spec: the concrete canonicalizers live in
`lib/fieldUtils.js`, which is not part of this tree; §4.2 describes them as
dedicated per-type canonical-form producers (E.164 phone formatting,
scheme-normalized URL). They are modelled as total, value-level
normalizers. Email: trimmed. -/
def specNormalizeEmail : Option JVal → Except Unit (Option JVal)
  | some (.vstr s) => Except.ok (some (.vstr (trimStr s)))
  | v => Except.ok v

def phoneDigits (s : String) : List Char :=
  s.toList.filter Char.isDigit

/-- Modelled from the spec: E.164 phone formatting with a US default — keep
the digits; ten digits gain a `+1`, eleven digits led by 1 gain a `+`; other
shapes are kept raw. -/
def specNormalizePhone : Option JVal → Except Unit (Option JVal)
  | some (.vstr s) =>
    if (phoneDigits s).length = 10 then
      Except.ok (some (.vstr ("+1" ++ String.mk (phoneDigits s))))
    else if (phoneDigits s).length = 11 && (phoneDigits s).head? = some '1' then
      Except.ok (some (.vstr ("+" ++ String.mk (phoneDigits s))))
    else Except.ok (some (.vstr s))
  | v => Except.ok v

/-- Modelled from the spec: scheme-normalized URL — prepend `https://` when
no HTTP scheme is present. -/
def specNormalizeUrl : Option JVal → Except Unit (Option JVal)
  | some (.vstr s) =>
    if ("http://".toList).isPrefixOf s.toList ||
        ("https://".toList).isPrefixOf s.toList then
      Except.ok (some (.vstr s))
    else Except.ok (some (.vstr ("https://" ++ s)))
  | v => Except.ok v

def trimStringField : String × JVal → String × JVal
  | (k, .vstr s) => (k, .vstr (trimStr s))
  | other => other

/-- Modelled from the spec: address canonicalization trims the string
subfields of the address object. -/
def specNormalizeAddress : Option JVal → Except Unit (Option JVal)
  | some (.vobj fs) => Except.ok (some (.vobj (fs.map trimStringField)))
  | v => Except.ok v

def specCanonicalizers : Canonicalizers :=
  ⟨specNormalizeEmail, specNormalizePhone, specNormalizeUrl, specNormalizeAddress⟩

/-! ## Relation resolution (attachResolvedUsersToEntries, part_000) -/

/-- Hex digit test for the UUID regex (case-insensitive). -/
def isHexDigit (c : Char) : Bool :=
  c.isDigit || ('a' ≤ c && c ≤ 'f') || ('A' ≤ c && c ≤ 'F')

/-- The `8-4-4-4-12` UUID shape tested by `isUuid`'s regex. -/
def uuidShape (l : List Char) : Bool :=
  match l.splitOn '-' with
  | [a, b, c, d, e] =>
    a.length = 8 && b.length = 4 && c.length = 4 && d.length = 4 &&
    e.length = 12 && (a ++ b ++ c ++ d ++ e).all isHexDigit
  | _ => false

/-- `isUuid(value)`: `String(value || '').trim()` matched against the regex. -/
def isUuid (v : Option JVal) : Bool :=
  uuidShape (trimStr (if jsTruthy v then jsStringTop (v.getD .vnull) else "")).toList

/-- A `content_fields` row of type `relation_user` (field_key + config). -/
structure UserFieldRow where
  field_key : String
  config : Option JVal
deriving Repr

/-- The per-field resolution config built from a row's stored config. -/
structure UserCfg where
  multiple : Bool
  display : JVal
  roleFilter : JVal
  onlyActive : Bool
deriving Repr

def mkUserCfg (cfgVal : Option JVal) : UserCfg :=
  let cfg : JObj := match cfgVal with
    | some (.vobj fs) => fs
    | _ => []
  { multiple := jsTruthy (objGet cfg "multiple")
    display := jsOr (objGet cfg "display") (.vstr "name_email")
    roleFilter := jsOr (objGet cfg "roleFilter") (.vstr "")
    onlyActive := match objGet cfg "onlyActive" with
      | none => true
      | some v => jsTruthy (some v) }

/-- The `userFields` map (assignment per row: later rows overwrite). -/
def buildUserFields (rows : List UserFieldRow) : List (String × UserCfg) :=
  rows.foldl (fun acc r =>
    if acc.any (fun kv => kv.1 = r.field_key) then
      acc.map (fun kv => if kv.1 = r.field_key then (kv.1, mkUserCfg r.config) else kv)
    else acc ++ [(r.field_key, mkUserCfg r.config)]) []

/-- A fetched user record (only the id matters for the context keys). -/
structure UserRec where
  id : String
deriving Repr, DecidableEq

/-- The ephemeral relation-resolution context (`entry._resolved`). -/
structure Resolved where
  userFields : List (String × UserCfg)
  usersById : List (String × UserRec)
deriving Repr

/-- An entry as the resolver sees it. -/
structure REntry where
  data : Option JVal
  resolved : Option Resolved
deriving Repr

/-- Collect the referenced identifiers of one entry under the user-field
keys (scalars and array elements that look like UUIDs). -/
def entryUserIds (userFields : List (String × UserCfg)) (e : REntry) : List String :=
  let data : JObj := match e.data with
    | some (.vobj fs) => fs
    | _ => []
  userFields.foldl (fun acc kv =>
    match objGet data kv.1 with
    | some (.varr xs) =>
      xs.foldl (fun acc v =>
        if isUuid (some v) then acc ++ [jsStringTop v] else acc) acc
    | v => if isUuid v then acc ++ [jsStringTop (v.getD .vnull)] else acc) []

/-- The de-duplicating `Set` insertion order. -/
def dedup (l : List String) : List String :=
  l.foldl (fun acc s => if acc.contains s then acc else acc ++ [s]) []

/-- `attachResolvedUsersToEntries`, with the two data-store round trips
abstracted: `userFieldRows` stands for the `content_fields` query result and
`lookup` for the batched `users` query, whose failure (a thrown/rejected
query) is `Except.error`. -/
def attachResolvedUsersToEntries (userFieldRows : List UserFieldRow)
    (lookup : List String → Except Unit (List UserRec))
    (typeIdPresent : Bool) (entries : List REntry) :
    Except Unit (List REntry) :=
  if !typeIdPresent || entries.isEmpty then Except.ok entries
  else if userFieldRows.isEmpty then Except.ok entries
  else
    let userFields := buildUserFields userFieldRows
    let ids := dedup (entries.foldl (fun acc e => acc ++ entryUserIds userFields e) [])
    if ids.isEmpty then
      Except.ok (entries.map (fun e =>
        let kept := match e.resolved with
          | some r => r.usersById
          | none => []
        { e with resolved := some ⟨userFields, kept⟩ }))
    else
      match lookup ids with
      | Except.error err => Except.error err
      | Except.ok users =>
        let usersById := users.foldl (fun acc u =>
          if acc.any (fun kv => kv.1 = u.id) then
            acc.map (fun kv => if kv.1 = u.id then (kv.1, u) else kv)
          else acc ++ [(u.id, u)]) []
        Except.ok (entries.map (fun e =>
          { e with resolved := some ⟨userFields, usersById⟩ }))

/-- The list-route response shape (`GET /api/content/:slug`). -/
inductive ListResponse where
  | notFound : ListResponse
  | ok : List REntry → ListResponse
  | serverError : ListResponse
deriving Repr

/-- `GET /api/content/:slug` past the data-store loads: a thrown resolution
is caught by the route's `catch` and becomes a 500. -/
def listContentRoute (typeFound : Bool) (userFieldRows : List UserFieldRow)
    (lookup : List String → Except Unit (List UserRec))
    (entries : List REntry) : ListResponse :=
  if !typeFound then .notFound
  else
    match attachResolvedUsersToEntries userFieldRows lookup true entries with
    | Except.ok es => .ok es
    | Except.error _ => .serverError

/-! ## Theorems -/

theorem eraseIdxLen {α : Type} (l : List α) (i : Nat) :
    l.length - 1 ≤ (l.eraseIdx i).length ∧ (l.eraseIdx i).length ≤ l.length := by
  induction l generalizing i with
  | nil => simp [List.eraseIdx]
  | cons a l ih =>
    cases i with
    | zero => simp [List.eraseIdx]
    | succ n =>
      simp only [List.eraseIdx, List.length_cons]
      have := ih n
      omega

theorem applyRepOpBounds (b : RepBounds) (mn mx : Int) (rows : List Row) (op : RepOp)
    (hmin : b.minRows = some mn) (hmax : b.maxRows = some mx)
    (hlo : mn ≤ (rows.length : Int)) (hhi : (rows.length : Int) ≤ mx) :
    mn ≤ ((applyRepOp b rows op).length : Int) ∧
      ((applyRepOp b rows op).length : Int) ≤ mx := by
  cases op with
  | append =>
    simp only [applyRepOp, addRow, hmax]
    by_cases h : (rows.length : Int) ≥ mx
    · simp only [h, if_pos]
      exact ⟨hlo, hhi⟩
    · simp only [h, if_neg, not_false_iff, List.length_append, List.length_cons,
        List.length_nil]
      push_cast
      omega
  | remove i =>
    simp only [applyRepOp, removeRow, hmin]
    by_cases h : (rows.length : Int) ≤ mn
    · simp only [h, if_pos]
      exact ⟨hlo, hhi⟩
    · simp only [h, if_neg, not_false_iff]
      have hb := eraseIdxLen rows i
      constructor
      · have : (rows.length : Int) - 1 ≤ ((rows.eraseIdx i).length : Int) := by
          omega
        omega
      · omega

/-- C5: with both `minRows` and `maxRows` configured, appending at `maxRows`
and removing at `minRows` are no-ops, and a row count inside
`[minRows, maxRows]` stays inside that interval under every sequence of
append/remove operations. -/
theorem c5_repeater_row_bounds (b : RepBounds) (mn mx : Int) (rows : List Row)
    (ops : List RepOp)
    (hmin : b.minRows = some mn) (hmax : b.maxRows = some mx)
    (hlo : mn ≤ (rows.length : Int)) (hhi : (rows.length : Int) ≤ mx) :
    ((rows.length : Int) = mx → addRow b rows = rows) ∧
    ((rows.length : Int) = mn → ∀ i, removeRow b i rows = rows) ∧
    (mn ≤ ((applyRepOps b rows ops).length : Int) ∧
      ((applyRepOps b rows ops).length : Int) ≤ mx) := by
  refine ⟨?_, ?_, ?_⟩
  · intro he
    simp [addRow, hmax, he]
  · intro he i
    simp [removeRow, hmin, he]
  · induction ops generalizing rows with
    | nil => exact ⟨hlo, hhi⟩
    | cons op ops ih =>
      simp only [applyRepOps, List.foldl_cons]
      have hstep := applyRepOpBounds b mn mx rows op hmin hmax hlo hhi
      exact ih (applyRepOp b rows op) hstep.1 hstep.2

/-- C5 witness at bounds 1..2, starting with one row and an
append/append/remove/remove burst. -/
theorem c5_repeater_row_bounds_witness :
    ((⟨some 1, some 2⟩ : RepBounds).minRows = some 1) ∧
    (((([[("a", JVal.vnum 1)]] : List Row).length : Int) = 2 →
        addRow ⟨some 1, some 2⟩ [[("a", JVal.vnum 1)]] = [[("a", JVal.vnum 1)]]) ∧
      ((([[("a", JVal.vnum 1)]] : List Row).length : Int) = 1 →
        ∀ i, removeRow ⟨some 1, some 2⟩ i [[("a", JVal.vnum 1)]] = [[("a", JVal.vnum 1)]]) ∧
      (1 ≤ ((applyRepOps ⟨some 1, some 2⟩ [[("a", JVal.vnum 1)]]
          [.append, .append, .remove 0, .remove 0]).length : Int) ∧
        ((applyRepOps ⟨some 1, some 2⟩ [[("a", JVal.vnum 1)]]
          [.append, .append, .remove 0, .remove 0]).length : Int) ≤ 2)) :=
  ⟨rfl, c5_repeater_row_bounds ⟨some 1, some 2⟩ 1 2 [[("a", JVal.vnum 1)]]
    [.append, .append, .remove 0, .remove 0] rfl rfl (by decide) (by decide)⟩

/-- The spec's comparison contract for `gt/gte/lt/lte`: numeric compare when
both sides parse as numbers, else lexicographic string compare. -/
def specRelCompare (op : String) (a b : Option JVal) : Bool :=
  match jsNumber a, jsNumber b with
  | some x, some y =>
    if op = "gt" then x > y
    else if op = "gte" then x ≥ y
    else if op = "lt" then x < y
    else x ≤ y
  | _, _ =>
    let sa := cmpStr a
    let sb := cmpStr b
    if op = "gt" then strLtJs sb sa
    else if op = "gte" then !(strLtJs sa sb)
    else if op = "lt" then strLtJs sa sb
    else !(strLtJs sb sa)

/-- The scenario rule `{ifKey:"age", op:"gte", value:18, action:"show",
targets:["waiver"]}`. -/
def ageGteRule : VisRule :=
  ⟨some "age", some "gte", some (.vnum 18), some "show", some ["waiver"]⟩

def waiverSf : SubfieldDef := ⟨some "waiver", none, none⟩

/-- C4: for `gt/gte/lt/lte` rules, the match is a numeric comparison when
both `row[ifKey]` and the comparison value parse as numbers, and a
lexicographic string comparison otherwise; in particular the
age ≥ 18 `show` rule on row `{age:"20"}` matches and leaves `waiver`
visible. -/
theorem c4_relational_compare (row : Row) (r : VisRule)
    (h : ruleOp r = "gt" ∨ ruleOp r = "gte" ∨ ruleOp r = "lt" ∨ ruleOp r = "lte") :
    evalRule row r = specRelCompare (ruleOp r) (ruleActual row r) r.value ∧
    (evalRule [("age", .vstr "20")] ageGteRule = true ∧
      visGet (computeSubfieldVisibility [waiverSf] (some [ageGteRule])
        [("age", .vstr "20")]) "waiver" = some true) := by
  refine ⟨?_, by decide, by decide⟩
  rcases h with h | h | h | h <;>
    · simp only [evalRule, specRelCompare, h]
      rcases jsNumber (ruleActual row r) with _ | x <;>
        rcases jsNumber r.value with _ | y <;> simp

/-- C4 witness: the scenario inputs themselves. -/
theorem c4_relational_compare_witness :
    (ruleOp ageGteRule = "gt" ∨ ruleOp ageGteRule = "gte" ∨
      ruleOp ageGteRule = "lt" ∨ ruleOp ageGteRule = "lte") ∧
    (evalRule [("age", .vstr "20")] ageGteRule =
      specRelCompare (ruleOp ageGteRule)
        (ruleActual [("age", .vstr "20")] ageGteRule) ageGteRule.value) :=
  ⟨Or.inr (Or.inl (by decide)),
    (c4_relational_compare [("age", .vstr "20")] ageGteRule
      (Or.inr (Or.inl (by decide)))).1⟩

theorem visGet_visSet (vis : VisMap) (k0 : String) (b : Bool) (k : String) :
    visGet (visSet vis k0 b) k = if k0 = k then some b else visGet vis k := by
  induction vis with
  | nil => simp [visSet, visGet]
  | cons kv rest ih =>
    obtain ⟨k', b'⟩ := kv
    by_cases h : k' = k0
    · subst h
      simp only [visSet, if_pos rfl, visGet]
      by_cases h2 : k' = k
      · simp [h2]
      · simp [h2, visGet]
    · simp only [visSet, if_neg h, visGet, ih]
      by_cases h2 : k' = k
      · have h3 : ¬(k0 = k) := fun he => h (h2.trans he.symm)
        simp [h2, h3]
      · simp [h2]

theorem visGet_setAll (keys : List String) (vis : VisMap) (b : Bool) (k : String) :
    visGet (keys.foldl (fun vis k => visSet vis k b) vis) k =
      if k ∈ keys then some b else visGet vis k := by
  induction keys generalizing vis with
  | nil => simp
  | cons k0 rest ih =>
    simp only [List.foldl_cons, ih, visGet_visSet, List.mem_cons]
    by_cases h1 : k ∈ rest
    · simp [h1]
    · by_cases h2 : k0 = k
      · simp [h1, h2]
      · have h3 : ¬(k = k0) := fun he => h2 he.symm
        simp [h1, h2, h3]

theorem visGet_applyRuleTargets (vis : VisMap) (r : VisRule) (k : String) :
    visGet (applyRuleTargets vis r) k =
      if k ∈ ruleTargetKeys r then some (decide (ruleAction r ≠ "hide"))
      else visGet vis k := by
  simp only [applyRuleTargets, visGet_setAll]

/-- The ten documented visibility operators. -/
def documentedOps : List String :=
  ["equals", "not_equals", "contains", "not_contains",
   "gt", "gte", "lt", "lte", "truthy", "falsy"]

/-- C10: an undocumented operator falls back to string-form equality
(behaves as `equals`), and a matching rule whose action is any string other
than "hide" sets its targets visible (behaves as `show`). -/
theorem c10_operator_action_fallbacks (row : Row) (r : VisRule) (vis : VisMap)
    (k : String)
    (hop : ruleOp r ∉ documentedOps)
    (hk : k ∈ ruleTargetKeys r) (hact : ruleAction r ≠ "hide") :
    evalRule row r = decide (cmpStr (ruleActual row r) = cmpStr r.value) ∧
    visGet (applyRuleTargets vis r) k = some true := by
  simp only [documentedOps, List.mem_cons, List.not_mem_nil, or_false, not_or] at hop
  obtain ⟨h1, h2, h3, h4, h5, h6, h7, h8, h9, h10⟩ := hop
  constructor
  · simp [evalRule, h1, h2, h3, h4, h5, h6, h7, h8, h9, h10]
  · rw [visGet_applyRuleTargets, if_pos hk]
    simp [hact]

/-- C10 witness: operator "matches", action "reveal". -/
theorem c10_operator_action_fallbacks_witness :
    (ruleOp ⟨some "flag", some "matches", some (.vstr "1"), some "reveal",
        some ["x"]⟩ ∉ documentedOps ∧
      "x" ∈ ruleTargetKeys ⟨some "flag", some "matches", some (.vstr "1"),
        some "reveal", some ["x"]⟩ ∧
      ruleAction ⟨some "flag", some "matches", some (.vstr "1"), some "reveal",
        some ["x"]⟩ ≠ "hide") ∧
    (evalRule [("flag", .vstr "1")]
        ⟨some "flag", some "matches", some (.vstr "1"), some "reveal", some ["x"]⟩ =
      decide (cmpStr (ruleActual [("flag", .vstr "1")]
          ⟨some "flag", some "matches", some (.vstr "1"), some "reveal", some ["x"]⟩) =
        cmpStr (VisRule.value ⟨some "flag", some "matches", some (.vstr "1"),
          some "reveal", some ["x"]⟩)) ∧
      visGet (applyRuleTargets []
        ⟨some "flag", some "matches", some (.vstr "1"), some "reveal", some ["x"]⟩)
        "x" = some true) :=
  ⟨⟨by decide, by decide, by decide⟩,
    c10_operator_action_fallbacks [("flag", .vstr "1")]
      ⟨some "flag", some "matches", some (.vstr "1"), some "reveal", some ["x"]⟩
      [] "x" (by decide) (by decide) (by decide)⟩

theorem lastRuleVerdict_cons (r : VisRule) (rest : List VisRule) (row : Row)
    (k : String) :
    lastRuleVerdict (r :: rest) row k =
      match lastRuleVerdict rest row k with
      | some b => some b
      | none =>
        if evalRule row r && decide (k ∈ ruleTargetKeys r) then
          some (decide (ruleAction r ≠ "hide"))
        else none := by
  simp only [lastRuleVerdict, List.reverse_cons, List.find?_append]
  rcases hfind : List.find?
      (fun r => evalRule row r && decide (k ∈ ruleTargetKeys r)) rest.reverse
    with _ | found
  · simp only [Option.or, Option.map]
    rcases hp : (evalRule row r && decide (k ∈ ruleTargetKeys r)) with _ | _
    · simp [List.find?, hp]
    · simp [List.find?, hp]
  · simp [Option.or]

theorem visGet_rulesFold (rules : List VisRule) (row : Row) (vis : VisMap)
    (k : String) :
    visGet (rules.foldl (fun vis r =>
        if evalRule row r then applyRuleTargets vis r else vis) vis) k =
      match lastRuleVerdict rules row k with
      | some b => some b
      | none => visGet vis k := by
  induction rules generalizing vis with
  | nil => simp [lastRuleVerdict]
  | cons r rest ih =>
    simp only [List.foldl_cons, ih, lastRuleVerdict_cons]
    rcases hv : lastRuleVerdict rest row k with _ | b
    · by_cases hr : evalRule row r
      · simp only [hr, if_pos, visGet_applyRuleTargets, true_and]
        by_cases hk : k ∈ ruleTargetKeys r
        · simp [hk]
        · simp [hk]
      · simp [hr]
    · simp

theorem declaredKeys_cons_blank (sf : SubfieldDef) (rest : List SubfieldDef)
    (hsf : sfKey sf = "") : declaredKeys (sf :: rest) = declaredKeys rest := by
  simp [declaredKeys, List.filter_cons, hsf]

theorem declaredKeys_cons_key (sf : SubfieldDef) (rest : List SubfieldDef)
    (hsf : sfKey sf ≠ "") :
    declaredKeys (sf :: rest) = sfKey sf :: declaredKeys rest := by
  simp [declaredKeys, List.filter_cons, hsf]

theorem visGet_initVis (sfs : List SubfieldDef) (vis : VisMap) (k : String) :
    visGet (sfs.foldl (fun vis sf =>
        if sfKey sf ≠ "" then visSet vis (sfKey sf) true else vis) vis) k =
      if k ∈ declaredKeys sfs then some true else visGet vis k := by
  induction sfs generalizing vis with
  | nil => simp [declaredKeys]
  | cons sf rest ih =>
    simp only [List.foldl_cons]
    by_cases hsf : sfKey sf = ""
    · rw [if_neg (by simpa using hsf), ih, declaredKeys_cons_blank sf rest hsf]
    · rw [if_pos (by simpa using hsf), ih, visGet_visSet,
        declaredKeys_cons_key sf rest hsf]
      simp only [List.mem_cons]
      by_cases h1 : k ∈ declaredKeys rest
      · simp [h1]
      · by_cases h2 : sfKey sf = k
        · simp [h1, h2]
        · have h2' : ¬(k = sfKey sf) := fun he => h2 he.symm
          simp [h1, h2, h2']

/-- C3: per row, every declared subfield starts visible, rules are applied in
declared order, and the last matching rule naming a target key decides its
final visibility (`show` ⇒ visible, `hide` ⇒ not visible). -/
theorem c3_last_rule_wins (subfields : List SubfieldDef) (rules : List VisRule)
    (row : Row) (k : String) (hk : k ∈ declaredKeys subfields) :
    visGet (computeSubfieldVisibility subfields (some rules) row) k =
      some ((lastRuleVerdict rules row k).getD true) := by
  simp only [computeSubfieldVisibility, Option.getD]
  rw [visGet_rulesFold]
  rcases hv : lastRuleVerdict rules row k with _ | b
  · rw [visGet_initVis, if_pos hk]
  · simp

/-- C3 witness: two rules both naming "b"; the later (hide) wins. -/
theorem c3_last_rule_wins_witness :
    ("b" ∈ declaredKeys [⟨some "a", none, none⟩, ⟨some "b", none, none⟩]) ∧
    visGet (computeSubfieldVisibility [⟨some "a", none, none⟩, ⟨some "b", none, none⟩]
        (some [⟨some "a", some "truthy", none, some "show", some ["b"]⟩,
               ⟨some "a", some "truthy", none, some "hide", some ["b"]⟩])
        [("a", .vstr "yes")]) "b" =
      some ((lastRuleVerdict
        [⟨some "a", some "truthy", none, some "show", some ["b"]⟩,
         ⟨some "a", some "truthy", none, some "hide", some ["b"]⟩]
        [("a", .vstr "yes")] "b").getD true) :=
  ⟨by decide,
    c3_last_rule_wins [⟨some "a", none, none⟩, ⟨some "b", none, none⟩]
      [⟨some "a", some "truthy", none, some "show", some ["b"]⟩,
       ⟨some "a", some "truthy", none, some "hide", some ["b"]⟩]
      [("a", .vstr "yes")] "b" (by decide)⟩

/-- The repeater subfield and hide rule used to exercise deep nesting. -/
def innerRepSf : SubfieldDef := ⟨some "inner", none, some "repeater"⟩

def hideInnerRule : VisRule :=
  ⟨some "flag", some "equals", some (.vstr "x"), some "hide", some ["inner"]⟩

/-- C6 counterexample: with `maxDepth = 1`, a repeater subfield that a
matching hide-rule targets renders as nothing at all — not as the inert
placeholder — so the too-deep subfield is *not* always "rendered as an inert
placeholder that is never evaluated for visibility": the visibility rules run
first and can suppress the cell entirely. -/
theorem c6_deep_repeater_counterexample :
    sfType innerRepSf = "repeater" ∧
    renderSubfieldCell [innerRepSf] (some [hideInnerRule])
      [("flag", .vstr "x")] innerRepSf 1 1 = CellOutcome.nothing ∧
    (∀ d, CellOutcome.nothing ≠ CellOutcome.inertPlaceholder d) :=
  ⟨by decide, rfl, fun _ h => CellOutcome.noConfusion h⟩

/-- C6 as amended: a subfield of type `repeater` at depth ≥ the parent's
`maxDepth` never renders an actual input (hence contributes no data keys);
it renders the inert placeholder exactly when its key is usable and the
row's visibility evaluation — which does run first — has not hidden it. -/
theorem c6_deep_repeater_inert (subfields : List SubfieldDef)
    (rules : Option (List VisRule)) (row : Row) (sf : SubfieldDef)
    (depth maxDepth : Int)
    (htype : sfType sf = "repeater") (hdepth : depth ≥ maxDepth) :
    cellDataKeys (renderSubfieldCell subfields rules row sf depth maxDepth) = [] ∧
    (renderSubfieldCell subfields rules row sf depth maxDepth =
        CellOutcome.inertPlaceholder depth ↔
      sfKey sf ≠ "" ∧
        visGet (computeSubfieldVisibility subfields rules row) (sfKey sf) ≠
          some false) := by
  have hnl : ¬(depth < maxDepth) := not_lt.mpr hdepth
  simp only [renderSubfieldCell, htype, hnl]
  by_cases hkey : sfKey sf = ""
  · simp [hkey, cellDataKeys]
  · by_cases hvis : visGet (computeSubfieldVisibility subfields rules row)
        (sfKey sf) = some false
    · simp [hkey, hvis, cellDataKeys]
    · simp [hkey, hvis, cellDataKeys]

/-- C6 witness: a visible repeater subfield at the depth limit. -/
theorem c6_deep_repeater_inert_witness :
    (sfType innerRepSf = "repeater" ∧ (1 : Int) ≥ 1) ∧
    (cellDataKeys (renderSubfieldCell [innerRepSf] none [] innerRepSf 1 1) = [] ∧
      (renderSubfieldCell [innerRepSf] none [] innerRepSf 1 1 =
          CellOutcome.inertPlaceholder 1 ↔
        sfKey innerRepSf ≠ "" ∧
          visGet (computeSubfieldVisibility [innerRepSf] none []) (sfKey innerRepSf) ≠
            some false)) :=
  ⟨⟨by decide, by decide⟩,
    c6_deep_repeater_inert [innerRepSf] none [] innerRepSf 1 1 (by decide) (by decide)⟩

/-- C1 counterexample: a content type declaring no usable fields, with no
sections collection at all, compiles to the empty layout — the claimed
"synthesize one section with all declared fields" does not happen, because
the fallback additionally requires at least one usable field. -/
theorem c1_fallback_counterexample :
    (CType.fields ⟨some []⟩).isSome ∧
    buildLayoutFromView (some ⟨some []⟩) none = [] ∧
    buildLayoutFromView (some ⟨some []⟩) none ≠
      [allFieldsSection (normFields ⟨some []⟩)] := by
  refine ⟨rfl, rfl, ?_⟩
  decide

/-- C1 as amended: with no sections collection at all, the compiler
synthesizes the single all-fields section exactly when the content type has
at least one usable field (otherwise the layout is empty); when a sections
collection exists — even empty, or yielding zero usable rows — the layout is
the compiled sections (hence `[]` in those cases), never the all-fields
fallback. -/
theorem c1_fallback_policy (ct : CType) (vc : Option ViewCfg) :
    (vc.bind (fun v => v.sections) = none →
      buildLayoutFromView (some ct) vc =
        (if normFields ct = [] then [] else [allFieldsSection (normFields ct)])) ∧
    (∀ secs, vc.bind (fun v => v.sections) = some secs →
      (∀ sec ∈ secs, compileSection (normFields ct) sec = none) →
      buildLayoutFromView (some ct) vc = []) := by
  constructor
  · intro hnone
    simp only [buildLayoutFromView, hnone, Option.isSome_none, Bool.not_false]
    by_cases hf : normFields ct = []
    · simp [hf]
    · simp [hf]
  · intro secs hsome hall
    have hfm : secs.filterMap (compileSection (normFields ct)) = [] :=
      List.filterMap_eq_nil_iff.mpr hall
    simp only [buildLayoutFromView, hsome, Option.isSome_some, Bool.not_true]
    by_cases hs : secs = []
    · simp [hs]
    · simp [hs, hfm]

/-- C1 witness: one usable field with no view config falls back to the
all-fields section; the same type with `{sections: []}` compiles to `[]`. -/
theorem c1_fallback_policy_witness :
    ((Option.bind (none : Option ViewCfg) (fun v => v.sections) = none →
      buildLayoutFromView (some ⟨some [some ⟨none, some "t", none⟩]⟩) none =
        (if normFields ⟨some [some ⟨none, some "t", none⟩]⟩ = [] then []
         else [allFieldsSection (normFields ⟨some [some ⟨none, some "t", none⟩]⟩)]))) ∧
    (Option.bind (some (⟨some []⟩ : ViewCfg)) (fun v => v.sections) = some [] →
      ((∀ sec ∈ ([] : List SectionCfg),
        compileSection (normFields ⟨some [some ⟨none, some "t", none⟩]⟩) sec = none) →
      buildLayoutFromView (some ⟨some [some ⟨none, some "t", none⟩]⟩)
        (some ⟨some []⟩) = [])) :=
  ⟨(c1_fallback_policy ⟨some [some ⟨none, some "t", none⟩]⟩ none).1,
    fun hsome hall =>
      (c1_fallback_policy ⟨some [some ⟨none, some "t", none⟩]⟩ (some ⟨some []⟩)).2
        [] hsome hall⟩

/-- C2 counterexample. First: for a content type with no `relation_user`
fields the read succeeds but returns the entries without any resolution
context (`_resolved` stays absent), refuting "every entry carries a non-null
context". Second: when a referenced user id forces the batched lookup and
that lookup fails, the failure propagates to the route's catch and the read
fails with a server error instead of degrading to an empty context. -/
theorem c2_resolution_counterexample :
    (listContentRoute true [] (fun _ => Except.ok []) [⟨none, none⟩] =
        ListResponse.ok [⟨none, none⟩] ∧
      REntry.resolved ⟨none, none⟩ = none) ∧
    listContentRoute true [⟨"owner", none⟩] (fun _ => Except.error ())
      [⟨some (.vobj [("owner", .vstr "123e4567-e89b-12d3-a456-426614174000")]),
        none⟩] = ListResponse.serverError :=
  ⟨⟨rfl, rfl⟩, rfl⟩

/-- C2 as amended: when the content type has at least one `relation_user`
field, every entry of a successful resolution carries a (possibly empty)
context; with no `relation_user` fields the entries are returned untouched —
no context is attached; and a failed batched lookup surfaces as a failed
read (500), not as a degraded empty context. -/
theorem c2_resolution_context (ufr : List UserFieldRow)
    (lookup : List String → Except Unit (List UserRec))
    (entries : List REntry) (hne : ufr ≠ []) :
    (∀ es, attachResolvedUsersToEntries ufr lookup true entries = Except.ok es →
      ∀ e ∈ es, e.resolved.isSome = true) ∧
    (∀ err, attachResolvedUsersToEntries ufr lookup true entries = Except.error err →
      listContentRoute true ufr lookup entries = ListResponse.serverError) ∧
    attachResolvedUsersToEntries [] lookup true entries = Except.ok entries := by
  have hufr : ufr.isEmpty = false := by
    cases ufr with
    | nil => exact absurd rfl hne
    | cons a l => rfl
  refine ⟨?_, ?_, ?_⟩
  · intro es hes e hee
    cases hentries : entries with
    | nil =>
      subst hentries
      rw [attachResolvedUsersToEntries] at hes
      simp only [List.isEmpty_nil, Bool.or_true, if_pos] at hes
      cases hes
      cases hee
    | cons e0 rest =>
      subst hentries
      rw [attachResolvedUsersToEntries] at hes
      simp only [List.isEmpty_cons, Bool.not_true, Bool.or_false, Bool.false_or,
        hufr, if_neg, Bool.false_eq_true, not_false_iff] at hes
      by_cases hids : (dedup (List.foldl
          (fun acc e => acc ++ entryUserIds (buildUserFields ufr) e) []
          (e0 :: rest))).isEmpty
      · rw [if_pos hids] at hes
        cases hes
        rcases List.mem_map.mp hee with ⟨e', _, he'⟩
        rw [← he']
        rfl
      · rw [if_neg hids] at hes
        rcases hlk : lookup (dedup (List.foldl
            (fun acc e => acc ++ entryUserIds (buildUserFields ufr) e) []
            (e0 :: rest))) with err | users
        · rw [hlk] at hes
          cases hes
        · rw [hlk] at hes
          cases hes
          rcases List.mem_map.mp hee with ⟨e', _, he'⟩
          rw [← he']
          rfl
  · intro err herr
    rw [listContentRoute]
    rw [herr]
    rfl
  · rw [attachResolvedUsersToEntries]
    by_cases hentries : entries.isEmpty
    · rw [Bool.not_true, Bool.false_or, if_pos hentries]
    · rw [Bool.not_true, Bool.false_or, if_neg hentries]
      simp

/-- C2 witness: one `relation_user` field, a successful empty lookup. -/
theorem c2_resolution_context_witness :
    (([⟨"owner", none⟩] : List UserFieldRow) ≠ []) ∧
    (∀ es, attachResolvedUsersToEntries [⟨"owner", none⟩]
        (fun _ => Except.ok []) true [⟨none, none⟩] = Except.ok es →
      ∀ e ∈ es, e.resolved.isSome = true) :=
  ⟨fun h => List.noConfusion h,
    (c2_resolution_context [⟨"owner", none⟩] (fun _ => Except.ok [])
      [⟨none, none⟩] (fun h => List.noConfusion h)).1⟩

theorem dropWhileAppendAll {p : Char → Bool} {l : List Char} (rest : List Char)
    (h : ∀ c ∈ l, p c) : (l ++ rest).dropWhile p = rest.dropWhile p := by
  induction l with
  | nil => rfl
  | cons a l ih =>
    have ha : p a := h a (List.mem_cons_self a l)
    simp only [List.cons_append, List.dropWhile_cons, ha, if_pos]
    exact ih (fun c hc => h c (List.mem_cons_of_mem a hc))

theorem takeWhileAppendAll {p : Char → Bool} {l : List Char} (rest : List Char)
    (h : ∀ c ∈ l, p c) : (l ++ rest).takeWhile p = l ++ rest.takeWhile p := by
  induction l with
  | nil => rfl
  | cons a l ih =>
    have ha : p a := h a (List.mem_cons_self a l)
    simp only [List.cons_append, List.takeWhile_cons, ha, if_pos]
    rw [ih (fun c hc => h c (List.mem_cons_of_mem a hc))]

theorem renderTokens_nil (data : Option JVal) : renderTokens data [] = [] := rfl

/-- A single well-formed `{token}` template renders exactly its token. -/
theorem renderTokens_single (data : Option JVal) (path : List Char)
    (hnb : ∀ c ∈ path, c ≠ '\x7d') (hne : path ≠ []) :
    renderTokens data ('\x7b' :: (path ++ ['\x7d'])) = renderTok data path := by
  have hp : ∀ c ∈ path, (fun d => decide (d ≠ '\x7d')) c = true := by
    intro c hc
    simpa using hnb c hc
  have hdw : (path ++ ['\x7d']).dropWhile (fun d => d ≠ '\x7d') = ['\x7d'] := by
    rw [dropWhileAppendAll _ hp]
    rfl
  have htw : (path ++ ['\x7d']).takeWhile (fun d => d ≠ '\x7d') = path := by
    rw [takeWhileAppendAll _ hp]
    simp [List.takeWhile_cons]
  have hlen : ('\x7b' :: (path ++ ['\x7d'])).length = (path.length + 1) + 1 := by
    simp
  rw [renderTokens, hlen, renderTokensF]
  rw [if_pos rfl, hdw, htw]
  dsimp only
  rw [if_neg hne]
  have hnil : renderTokensF data (path.length + 1) [] = [] := by
    rw [renderTokensF]
  rw [hnil, List.append_nil]

theorem trimChars_brace (path : List Char) :
    trimChars ('\x7b' :: (path ++ ['\x7d'])) = '\x7b' :: (path ++ ['\x7d'])
    := by
  have h1 : wsChar '\x7b' = false := rfl
  have h2 : wsChar '\x7d' = false := rfl
  simp [trimChars, List.dropWhile_cons, h1, h2]


theorem dropWhileHeadFalse {α : Type} {p : α → Bool} {l : List α} {c : α}
    {t : List α} (h : l.dropWhile p = c :: t) : p c = false := by
  induction l with
  | nil => cases h
  | cons a l ih =>
    rw [List.dropWhile_cons] at h
    by_cases hp : p a
    · rw [if_pos hp] at h
      exact ih h
    · rw [if_neg hp] at h
      cases h
      simpa using hp

theorem dropWhileIdem {α : Type} (p : α → Bool) (l : List α) :
    (l.dropWhile p).dropWhile p = l.dropWhile p := by
  rcases h : l.dropWhile p with _ | ⟨c, t⟩
  · rfl
  · rw [List.dropWhile_cons, dropWhileHeadFalse h]
    simp

theorem trimCharsIdem (l : List Char) : trimChars (trimChars l) = trimChars l := by
  have h1 : ((((l.dropWhile wsChar).reverse.dropWhile wsChar).reverse)).dropWhile
      wsChar = ((l.dropWhile wsChar).reverse.dropWhile wsChar).reverse := by
    rcases hyr : ((l.dropWhile wsChar).reverse.dropWhile wsChar).reverse
      with _ | ⟨c, t⟩
    · rfl
    · have hyne : (l.dropWhile wsChar).reverse.dropWhile wsChar ≠ [] := by
        intro h0
        rw [h0] at hyr
        cases hyr
      have hgl : ((l.dropWhile wsChar).reverse.dropWhile wsChar).getLast? = some c := by
        rw [← List.head?_reverse, hyr]
        rfl
      have hdecomp : ((l.dropWhile wsChar).reverse).takeWhile wsChar ++
          ((l.dropWhile wsChar).reverse).dropWhile wsChar =
          (l.dropWhile wsChar).reverse :=
        List.takeWhile_append_dropWhile wsChar (l.dropWhile wsChar).reverse
      have hgl2 : ((l.dropWhile wsChar).reverse).getLast? = some c := by
        rw [← hdecomp, List.getLast?_append_of_ne_nil _ hyne, hgl]
      have hhead : (l.dropWhile wsChar).head? = some c := by
        rw [← List.getLast?_reverse, hgl2]
      have hpc : wsChar c = false := by
        rcases hx0 : l.dropWhile wsChar with _ | ⟨a, t'⟩
        · rw [hx0] at hhead
          cases hhead
        · rw [hx0] at hhead
          have hac : a = c := by
            simpa using hhead
          subst hac
          exact dropWhileHeadFalse hx0
      rw [List.dropWhile_cons, hpc]
      simp
  have h2 : ((((l.dropWhile wsChar).reverse.dropWhile wsChar).reverse)).reverse.dropWhile
      wsChar = (l.dropWhile wsChar).reverse.dropWhile wsChar := by
    rw [List.reverse_reverse]
    exact dropWhileIdem wsChar (l.dropWhile wsChar).reverse
  show ((((trimChars l).dropWhile wsChar).reverse).dropWhile wsChar).reverse = trimChars l
  rw [show trimChars l = ((l.dropWhile wsChar).reverse.dropWhile wsChar).reverse from rfl]
  rw [h1, h2]

theorem trimStrIdem (s : String) : trimStr (trimStr s) = trimStr s := by
  show String.mk (trimChars (trimStr s).toList) = trimStr s
  rw [show (trimStr s).toList = trimChars s.toList from rfl, trimCharsIdem]
  rfl

theorem objGet_objSet_self (o : JObj) (k : String) (v : JVal) :
    objGet (objSet o k v) k = some v := by
  induction o with
  | nil => simp [objSet, objGet]
  | cons kv rest ih =>
    obtain ⟨k', v'⟩ := kv
    by_cases h : k' = k
    · simp [objSet, objGet, h]
    · simp [objSet, objGet, h, ih]

theorem objGet_objSet_other (o : JObj) (k : String) (v : JVal) (k' : String)
    (h : k ≠ k') : objGet (objSet o k v) k' = objGet o k' := by
  induction o with
  | nil => simp [objSet, objGet, h]
  | cons kv rest ih =>
    obtain ⟨k0, v0⟩ := kv
    by_cases h0 : k0 = k
    · subst h0
      simp [objSet, objGet, h]
    · simp only [objSet, h0, if_neg, objGet]
      by_cases h1 : k0 = k'
      · simp [h1]
      · simp [h1, ih]

theorem objGet_objDel_self (o : JObj) (k : String) :
    objGet (objDel o k) k = none := by
  simp only [objDel]
  induction o with
  | nil => rfl
  | cons kv rest ih =>
    obtain ⟨k0, v0⟩ := kv
    rw [List.filter_cons]
    by_cases h0 : k0 = k
    · rw [if_neg (by simp [h0])]
      exact ih
    · rw [if_pos (by simp [h0])]
      simp only [objGet, h0, if_neg]
      exact ih

theorem objGet_objDel_other (o : JObj) (k k' : String) (h : k ≠ k') :
    objGet (objDel o k) k' = objGet o k' := by
  simp only [objDel]
  induction o with
  | nil => rfl
  | cons kv rest ih =>
    obtain ⟨k0, v0⟩ := kv
    rw [List.filter_cons]
    by_cases h0 : k0 = k
    · rw [if_neg (by simp [h0])]
      rw [ih]
      have h1 : ¬(k0 = k') := by
        rw [h0]
        exact h
      simp [objGet, h1]
    · rw [if_pos (by simp [h0])]
      by_cases h1 : k0 = k'
      · simp [objGet, h1]
      · simp only [objGet, h1, if_neg, not_false_iff]
        exact ih

theorem objSet_get_eq (o : JObj) (k : String) (v : JVal)
    (h : objGet o k = some v) : objSet o k v = o := by
  induction o with
  | nil => cases h
  | cons kv rest ih =>
    obtain ⟨k0, v0⟩ := kv
    by_cases h0 : k0 = k
    · subst h0
      simp only [objGet, if_pos rfl] at h
      cases h
      simp [objSet]
    · simp only [objGet, h0, if_neg] at h
      simp [objSet, h0, ih h]

theorem objDel_get_none (o : JObj) (k : String)
    (h : objGet o k = none) : objDel o k = o := by
  simp only [objDel] at *
  induction o with
  | nil => rfl
  | cons kv rest ih =>
    obtain ⟨k0, v0⟩ := kv
    by_cases h0 : k0 = k
    · subst h0
      simp [objGet] at h
    · rw [List.filter_cons, if_pos (by simp [h0])]
      simp only [objGet, h0, if_neg] at h
      rw [ih h]

/-- Whether the alias-move for a field fires, read off the current state. -/
def aliasMoveFires (o : JObj) (f : FieldDef) : Bool :=
  (objGet o (camelize f.key)).isSome && (objGet o f.key).isNone

theorem moveAliasStep_of_not_fires (o : JObj) (f : FieldDef)
    (h : aliasMoveFires o f = false) : moveAliasStep o f = o := by
  rw [moveAliasStep]
  rcases hc : objGet o (camelize f.key) with _ | v
  · rcases hs : objGet o f.key with _ | w <;> rfl
  · rcases hs : objGet o f.key with _ | w
    · rw [aliasMoveFires, hc, hs] at h
      cases h
    · rfl

theorem moveAliasStep_get_other (o : JObj) (f : FieldDef) (k : String)
    (hk1 : k ≠ f.key) (hk2 : k ≠ camelize f.key) :
    objGet (moveAliasStep o f) k = objGet o k := by
  rw [moveAliasStep]
  rcases hc : objGet o (camelize f.key) with _ | v
  · rcases hs : objGet o f.key with _ | w <;> rfl
  · rcases hs : objGet o f.key with _ | w
    · rw [objGet_objDel_other _ _ _ (fun he => hk2 he.symm),
        objGet_objSet_other _ _ _ _ (fun he => hk1 he.symm)]
    · rfl

theorem moveAliasStep_get_snake (o : JObj) (f : FieldDef) :
    objGet (moveAliasStep o f) f.key =
      if aliasMoveFires o f then objGet o (camelize f.key) else objGet o f.key := by
  rw [moveAliasStep]
  rcases hc : objGet o (camelize f.key) with _ | v
  · have hf : aliasMoveFires o f = false := by
      rw [aliasMoveFires, hc]
      rfl
    rcases hs : objGet o f.key with _ | w <;> simp [hf, hs]
  · rcases hs : objGet o f.key with _ | w
    · have hf : aliasMoveFires o f = true := by
        rw [aliasMoveFires, hc, hs]
        rfl
      have hne : camelize f.key ≠ f.key := by
        intro he
        rw [he, hs] at hc
        cases hc
      simp only [hf, if_pos]
      rw [objGet_objDel_other _ _ _ hne, objGet_objSet_self]
    · have hf : aliasMoveFires o f = false := by
        rw [aliasMoveFires, hc, hs]
        rfl
      simp [hf, hs]

theorem moveAliasStep_get_camel (o : JObj) (f : FieldDef) :
    objGet (moveAliasStep o f) (camelize f.key) =
      if aliasMoveFires o f then none else objGet o (camelize f.key) := by
  rw [moveAliasStep]
  rcases hc : objGet o (camelize f.key) with _ | v
  · have hf : aliasMoveFires o f = false := by
      rw [aliasMoveFires, hc]
      rfl
    rcases hs : objGet o f.key with _ | w <;> simp [hf, hc]
  · rcases hs : objGet o f.key with _ | w
    · have hf : aliasMoveFires o f = true := by
        rw [aliasMoveFires, hc, hs]
        rfl
      simp only [hf, if_pos]
      exact objGet_objDel_self _ _
    · have hf : aliasMoveFires o f = false := by
        rw [aliasMoveFires, hc, hs]
        rfl
      simp [hf, hc]

theorem moveAliases_get_frame (fds : List FieldDef) (o : JObj) (k : String)
    (h : ∀ f ∈ fds, k ≠ f.key ∧ k ≠ camelize f.key) :
    objGet (moveAliases fds o) k = objGet o k := by
  induction fds generalizing o with
  | nil => rfl
  | cons g rest ih =>
    have hg := h g (List.mem_cons_self g rest)
    show objGet (moveAliases rest (moveAliasStep o g)) k = objGet o k
    rw [ih _ (fun f hf => h f (List.mem_cons_of_mem g hf)),
      moveAliasStep_get_other _ _ _ hg.1 hg.2]

/-- Well-formedness of a field list for alias analysis: canonical keys are
unique (the registry invariant), and a genuine camelCase alias never collides
with another field's canonical key or alias. -/
def fdsWellFormed (fds : List FieldDef) : Prop :=
  (fds.map (fun f => f.key)).Nodup ∧
  (∀ g ∈ fds, ∀ g' ∈ fds, camelize g.key ≠ g.key → camelize g.key ≠ g'.key) ∧
  (fds.map (fun f => camelize f.key)).Nodup

instance (fds : List FieldDef) : Decidable (fdsWellFormed fds) := by
  unfold fdsWellFormed
  infer_instance

theorem fdsWellFormed_tail {g : FieldDef} {rest : List FieldDef}
    (hw : fdsWellFormed (g :: rest)) : fdsWellFormed rest := by
  obtain ⟨h1, h2, h3⟩ := hw
  exact ⟨(List.nodup_cons.mp h1).2,
    fun a ha b hb => h2 a (List.mem_cons_of_mem g ha) b (List.mem_cons_of_mem g hb),
    (List.nodup_cons.mp h3).2⟩

theorem moveAliases_char (fds : List FieldDef) (d : JObj) (f : FieldDef)
    (hf : f ∈ fds) (hw : fdsWellFormed fds) :
    objGet (moveAliases fds d) f.key =
      (if aliasMoveFires d f then objGet d (camelize f.key) else objGet d f.key) ∧
    (camelize f.key ≠ f.key →
      objGet (moveAliases fds d) (camelize f.key) =
        (if aliasMoveFires d f then none else objGet d (camelize f.key))) := by
  induction fds generalizing d with
  | nil => exact absurd hf (List.not_mem_nil f)
  | cons g rest ih =>
    obtain ⟨H1, H2, H3⟩ := hw
    have hstep : moveAliases (g :: rest) d = moveAliases rest (moveAliasStep d g) :=
      rfl
    rcases List.mem_cons.mp hf with hfg | hfr
    · subst hfg
      have hframe : ∀ h ∈ rest, f.key ≠ h.key ∧ f.key ≠ camelize h.key := by
        intro h hh
        constructor
        · intro he
          apply (List.nodup_cons.mp H1).1
          show f.key ∈ List.map (fun f => f.key) rest
          rw [he]
          exact List.mem_map_of_mem _ hh
        · by_cases hch : camelize h.key = h.key
          · rw [hch]
            intro he
            apply (List.nodup_cons.mp H1).1
            show f.key ∈ List.map (fun f => f.key) rest
            rw [he]
            exact List.mem_map_of_mem _ hh
          · intro he
            exact H2 h (List.mem_cons_of_mem f hh) f (List.mem_cons_self f rest)
              hch he.symm
      constructor
      · rw [hstep, moveAliases_get_frame _ _ _ hframe, moveAliasStep_get_snake]
      · intro hcs
        have hframe2 : ∀ h ∈ rest, camelize f.key ≠ h.key ∧
            camelize f.key ≠ camelize h.key := by
          intro h hh
          constructor
          · exact H2 f (List.mem_cons_self f rest) h (List.mem_cons_of_mem f hh) hcs
          · intro he
            apply (List.nodup_cons.mp H3).1
            show camelize f.key ∈ List.map (fun f => camelize f.key) rest
            rw [he]
            exact List.mem_map_of_mem _ hh
        rw [hstep, moveAliases_get_frame _ _ _ hframe2, moveAliasStep_get_camel]
    · have hk1 : f.key ≠ g.key := by
        intro he
        apply (List.nodup_cons.mp H1).1
        show g.key ∈ List.map (fun f => f.key) rest
        rw [← he]
        exact List.mem_map_of_mem _ hfr
      have hk2 : f.key ≠ camelize g.key := by
        by_cases hcg : camelize g.key = g.key
        · rw [hcg]
          exact hk1
        · intro he
          exact H2 g (List.mem_cons_self g rest) f (List.mem_cons_of_mem g hfr)
            hcg he.symm
      have hc1 : camelize f.key ≠ g.key := by
        by_cases hcf : camelize f.key = f.key
        · rw [hcf]
          exact hk1
        · exact H2 f (List.mem_cons_of_mem g hfr) g (List.mem_cons_self g rest) hcf
      have hc2 : camelize f.key ≠ camelize g.key := by
        intro he
        apply (List.nodup_cons.mp H3).1
        show camelize g.key ∈ List.map (fun f => camelize f.key) rest
        rw [← he]
        exact List.mem_map_of_mem _ hfr
      have hkey : objGet (moveAliasStep d g) f.key = objGet d f.key :=
        moveAliasStep_get_other _ _ _ hk1 hk2
      have hcam : objGet (moveAliasStep d g) (camelize f.key) =
          objGet d (camelize f.key) :=
        moveAliasStep_get_other _ _ _ hc1 hc2
      have hfires : aliasMoveFires (moveAliasStep d g) f = aliasMoveFires d f := by
        rw [aliasMoveFires, aliasMoveFires, hkey, hcam]
      have hihres := ih (moveAliasStep d g) hfr
        (fdsWellFormed_tail ⟨H1, H2, H3⟩)
      rw [hstep]
      constructor
      · rw [hihres.1, hfires, hkey, hcam]
      · intro hcs
        rw [hihres.2 hcs, hfires, hcam]

/-- C8: per field (under the registry's key-uniqueness invariant), the
camelCase alias value moves to the canonical snake_case key, dropping the
alias, exactly when the alias is defined and the canonical key is not; and
normalization is best-effort — a canonicalizer failure is caught and the
whole original payload is returned, while a successful canonicalization pass
is returned as-is (the pure embedding mutates nothing). -/
theorem c8_entry_normalization (C : Canonicalizers) (fds : List FieldDef)
    (d : JObj) (f : FieldDef) (hf : f ∈ fds) (hw : fdsWellFormed fds) :
    (objGet (moveAliases fds d) f.key =
        (if aliasMoveFires d f then objGet d (camelize f.key) else objGet d f.key) ∧
      (camelize f.key ≠ f.key →
        objGet (moveAliases fds d) (camelize f.key) =
          (if aliasMoveFires d f then none else objGet d (camelize f.key)))) ∧
    (∀ e, canonPhase C fds (moveAliases fds d) = Except.error e →
      normalizeEntryData C fds d = d) ∧
    (∀ o, canonPhase C fds (moveAliases fds d) = Except.ok o →
      normalizeEntryData C fds d = o) := by
  refine ⟨moveAliases_char fds d f hf hw, ?_, ?_⟩
  · intro e he
    rw [normalizeEntryData, he]
  · intro o ho
    rw [normalizeEntryData, ho]

/-- C8 witness: an `email` field whose alias `userEmail` is present while
`user_email` is absent. -/
theorem c8_entry_normalization_witness :
    ((⟨"user_email", "email"⟩ : FieldDef) ∈
        ([⟨"user_email", "email"⟩, ⟨"age", "number"⟩] : List FieldDef) ∧
      fdsWellFormed [⟨"user_email", "email"⟩, ⟨"age", "number"⟩]) ∧
    (objGet (moveAliases [⟨"user_email", "email"⟩, ⟨"age", "number"⟩]
        [("userEmail", .vstr " a@b.c ")]) "user_email" =
      (if aliasMoveFires [("userEmail", .vstr " a@b.c ")] ⟨"user_email", "email"⟩ then
        objGet [("userEmail", .vstr " a@b.c ")] (camelize "user_email")
      else objGet [("userEmail", .vstr " a@b.c ")] "user_email")) :=
  ⟨⟨by decide, by decide⟩,
    ((c8_entry_normalization specCanonicalizers
      [⟨"user_email", "email"⟩, ⟨"age", "number"⟩]
      [("userEmail", .vstr " a@b.c ")] ⟨"user_email", "email"⟩
      (by decide) (by decide)).1).1⟩

/-- A canonicalizer behaves well on an input: it succeeds, preserves
definedness, and its output is a fixpoint. -/
def canonGood (g : Option JVal → Except Unit (Option JVal)) (v : Option JVal) :
    Prop :=
  ∃ w, g v = Except.ok w ∧ w.isSome = v.isSome ∧ g w = Except.ok w

theorem specEmail_good (v : Option JVal) : canonGood specNormalizeEmail v := by
  rcases v with _ | w
  · exact ⟨none, rfl, rfl, rfl⟩
  · cases w with
    | vstr s =>
      refine ⟨some (.vstr (trimStr s)), rfl, rfl, ?_⟩
      show Except.ok (some (JVal.vstr (trimStr (trimStr s)))) =
        Except.ok (some (JVal.vstr (trimStr s)))
      rw [trimStrIdem]
    | vnull => exact ⟨_, rfl, rfl, rfl⟩
    | vbool b => exact ⟨_, rfl, rfl, rfl⟩
    | vnum n => exact ⟨_, rfl, rfl, rfl⟩
    | varr xs => exact ⟨_, rfl, rfl, rfl⟩
    | vobj fs => exact ⟨_, rfl, rfl, rfl⟩

theorem phoneDigits_plus1 (digits : List Char)
    (h : ∀ c ∈ digits, Char.isDigit c) :
    phoneDigits ("+1" ++ String.mk digits) = '1' :: digits := by
  have hdata : ("+1" ++ String.mk digits).toList = '+' :: '1' :: digits := by
    show ("+1" ++ String.mk digits).data = '+' :: '1' :: digits
    rw [String.data_append]
    rfl
  rw [phoneDigits, hdata, List.filter_cons, List.filter_cons]
  have hplus : Char.isDigit '+' = false := rfl
  have hone : Char.isDigit '1' = true := rfl
  rw [hplus, hone]
  simp only [Bool.false_eq_true, if_neg, not_false_iff, if_pos]
  rw [List.filter_eq_self.mpr h]

theorem phoneDigits_plus (digits : List Char)
    (h : ∀ c ∈ digits, Char.isDigit c) :
    phoneDigits ("+" ++ String.mk digits) = digits := by
  have hdata : ("+" ++ String.mk digits).toList = '+' :: digits := by
    show ("+" ++ String.mk digits).data = '+' :: digits
    rw [String.data_append]
    rfl
  rw [phoneDigits, hdata, List.filter_cons]
  have hplus : Char.isDigit '+' = false := rfl
  rw [hplus]
  simp only [Bool.false_eq_true, if_neg, not_false_iff]
  rw [List.filter_eq_self.mpr h]

theorem specPhone_good (v : Option JVal) : canonGood specNormalizePhone v := by
  rcases v with _ | w
  · exact ⟨none, rfl, rfl, rfl⟩
  · cases w with
    | vstr s =>
      have hall : ∀ c ∈ phoneDigits s, Char.isDigit c := by
        intro c hc
        exact List.of_mem_filter hc
      by_cases h10 : (phoneDigits s).length = 10
      · refine ⟨some (.vstr ("+1" ++ String.mk (phoneDigits s))), ?_, rfl, ?_⟩
        · simp only [specNormalizePhone]
          rw [if_pos h10]
        · simp only [specNormalizePhone]
          rw [phoneDigits_plus1 _ hall]
          rw [if_neg (by rw [List.length_cons, h10]; omega)]
          rw [if_pos (by rw [List.length_cons, h10]; rfl)]
          show Except.ok (some (JVal.vstr ("+" ++ String.mk ('1' :: phoneDigits s)))) =
            Except.ok (some (JVal.vstr ("+1" ++ String.mk (phoneDigits s))))
          have : ("+" ++ String.mk ('1' :: phoneDigits s)) =
              ("+1" ++ String.mk (phoneDigits s)) := by
            show String.mk ("+".data ++ ('1' :: phoneDigits s)) =
              String.mk ("+1".data ++ phoneDigits s)
            rfl
          rw [this]
      · by_cases h11 : (phoneDigits s).length = 11 ∧ (phoneDigits s).head? = some '1'
        · refine ⟨some (.vstr ("+" ++ String.mk (phoneDigits s))), ?_, rfl, ?_⟩
          · simp only [specNormalizePhone]
            rw [if_neg h10, if_pos (by rw [h11.1, h11.2]; rfl)]
          · simp only [specNormalizePhone]
            rw [phoneDigits_plus _ hall]
            rw [if_neg (by rw [h11.1]; omega), if_pos (by rw [h11.1, h11.2]; rfl)]
        · refine ⟨some (.vstr s), ?_, rfl, ?_⟩ <;>
          · simp only [specNormalizePhone]
            rw [if_neg h10, if_neg (by
              intro hb
              rw [Bool.and_eq_true] at hb
              exact h11 ⟨by simpa using hb.1, by simpa using hb.2⟩)]
    | vnull => exact ⟨_, rfl, rfl, rfl⟩
    | vbool b => exact ⟨_, rfl, rfl, rfl⟩
    | vnum n => exact ⟨_, rfl, rfl, rfl⟩
    | varr xs => exact ⟨_, rfl, rfl, rfl⟩
    | vobj fs => exact ⟨_, rfl, rfl, rfl⟩

theorem specUrl_good (v : Option JVal) : canonGood specNormalizeUrl v := by
  rcases v with _ | w
  · exact ⟨none, rfl, rfl, rfl⟩
  · cases w with
    | vstr s =>
      by_cases hp : (("http://".toList).isPrefixOf s.toList ||
          ("https://".toList).isPrefixOf s.toList) = true
      · refine ⟨some (.vstr s), ?_, rfl, ?_⟩ <;>
        · simp only [specNormalizeUrl]
          rw [if_pos hp]
      · refine ⟨some (.vstr ("https://" ++ s)), ?_, rfl, ?_⟩
        · simp only [specNormalizeUrl]
          rw [if_neg hp]
        · simp only [specNormalizeUrl]
          have hpre : ("https://".toList).isPrefixOf
              (("https://" ++ s).toList) = true := by
            rw [List.isPrefixOf_iff_prefix]
            have : ("https://" ++ s).toList = "https://".toList ++ s.toList := by
              show ("https://" ++ s).data = "https://".data ++ s.data
              exact String.data_append _ _
            rw [this]
            exact List.prefix_append _ _
          rw [if_pos (by rw [hpre, Bool.or_true])]
    | vnull => exact ⟨_, rfl, rfl, rfl⟩
    | vbool b => exact ⟨_, rfl, rfl, rfl⟩
    | vnum n => exact ⟨_, rfl, rfl, rfl⟩
    | varr xs => exact ⟨_, rfl, rfl, rfl⟩
    | vobj fs => exact ⟨_, rfl, rfl, rfl⟩

theorem trimStringField_idem (kv : String × JVal) :
    trimStringField (trimStringField kv) = trimStringField kv := by
  obtain ⟨k, v⟩ := kv
  cases v with
  | vstr s =>
    show (k, JVal.vstr (trimStr (trimStr s))) = (k, JVal.vstr (trimStr s))
    rw [trimStrIdem]
  | vnull => rfl
  | vbool b => rfl
  | vnum n => rfl
  | varr xs => rfl
  | vobj fs => rfl

theorem specAddress_good (v : Option JVal) : canonGood specNormalizeAddress v := by
  rcases v with _ | w
  · exact ⟨none, rfl, rfl, rfl⟩
  · cases w with
    | vobj fs =>
      refine ⟨some (.vobj (fs.map trimStringField)), rfl, rfl, ?_⟩
      show Except.ok (some (JVal.vobj ((fs.map trimStringField).map trimStringField))) =
        Except.ok (some (JVal.vobj (fs.map trimStringField)))
      rw [List.map_map]
      have : (trimStringField ∘ trimStringField) = trimStringField := by
        funext kv
        exact trimStringField_idem kv
      rw [this]
    | vnull => exact ⟨_, rfl, rfl, rfl⟩
    | vbool b => exact ⟨_, rfl, rfl, rfl⟩
    | vnum n => exact ⟨_, rfl, rfl, rfl⟩
    | vstr s => exact ⟨_, rfl, rfl, rfl⟩
    | varr xs => exact ⟨_, rfl, rfl, rfl⟩

/-- Every canonicalizer the spec model dispatches to is well-behaved. -/
theorem specCanon_good (t : String) (g : Option JVal → Except Unit (Option JVal))
    (hg : canonFor specCanonicalizers t = some g) (v : Option JVal) :
    canonGood g v := by
  rw [canonFor] at hg
  by_cases h1 : t = "email"
  · rw [if_pos h1] at hg
    cases hg
    exact specEmail_good v
  · rw [if_neg h1] at hg
    by_cases h2 : t = "phone"
    · rw [if_pos h2] at hg
      cases hg
      exact specPhone_good v
    · rw [if_neg h2] at hg
      by_cases h3 : t = "url"
      · rw [if_pos h3] at hg
        cases hg
        exact specUrl_good v
      · rw [if_neg h3] at hg
        by_cases h4 : t = "address"
        · rw [if_pos h4] at hg
          cases hg
          exact specAddress_good v
        · rw [if_neg h4] at hg
          cases hg

theorem objGet_objSetOpt (o : JObj) (k : String) (w : Option JVal) (k' : String) :
    objGet (objSetOpt o k w) k' = if k = k' then w else objGet o k' := by
  cases w with
  | some v =>
    by_cases h : k = k'
    · subst h
      rw [objSetOpt, objGet_objSet_self, if_pos rfl]
    · rw [objSetOpt, objGet_objSet_other _ _ _ _ h, if_neg h]
  | none =>
    by_cases h : k = k'
    · subst h
      rw [objSetOpt, objGet_objDel_self, if_pos rfl]
    · rw [objSetOpt, objGet_objDel_other _ _ _ h, if_neg h]

theorem objSetOpt_get_eq (o : JObj) (k : String) (w : Option JVal)
    (h : objGet o k = w) : objSetOpt o k w = o := by
  cases w with
  | some v => exact objSet_get_eq o k v h
  | none => exact objDel_get_none o k h

theorem canonPhase_nil (C : Canonicalizers) (o : JObj) :
    canonPhase C [] o = Except.ok o := rfl

theorem canonPhase_cons (C : Canonicalizers) (f : FieldDef) (rest : List FieldDef)
    (o : JObj) :
    canonPhase C (f :: rest) o =
      (match canonFor C f.type with
       | none => Except.ok o
       | some g => (g (objGet o f.key)).map (objSetOpt o f.key)) >>= fun o' =>
        canonPhase C rest o' := by
  rw [canonPhase, List.foldlM_cons]
  rfl

theorem canonPhase_cons_none (C : Canonicalizers) (f : FieldDef)
    (rest : List FieldDef) (o : JObj) (hcf : canonFor C f.type = none) :
    canonPhase C (f :: rest) o = canonPhase C rest o := by
  rw [canonPhase_cons, hcf]
  rfl

theorem canonPhase_cons_some (C : Canonicalizers) (f : FieldDef)
    (rest : List FieldDef) (o : JObj) (g : Option JVal → Except Unit (Option JVal))
    (hcf : canonFor C f.type = some g) :
    canonPhase C (f :: rest) o =
      (g (objGet o f.key)).map (objSetOpt o f.key) >>= fun o' =>
        canonPhase C rest o' := by
  rw [canonPhase_cons, hcf]

theorem canonPhase_spec_ok (fds : List FieldDef) (o : JObj) :
    ∃ o', canonPhase specCanonicalizers fds o = Except.ok o' ∧
      (∀ k, (objGet o' k).isSome = (objGet o k).isSome) ∧
      (∀ k, (∀ f ∈ fds, k ≠ f.key) → objGet o' k = objGet o k) := by
  induction fds generalizing o with
  | nil => exact ⟨o, rfl, fun k => rfl, fun k _ => rfl⟩
  | cons f rest ih =>
    rcases hcf : canonFor specCanonicalizers f.type with _ | g
    · obtain ⟨o', ho', hpres, hframe⟩ := ih o
      refine ⟨o', ?_, hpres, ?_⟩
      · rw [canonPhase_cons_none _ _ _ _ hcf]
        exact ho'
      · intro k hk
        exact hframe k (fun f' hf' => hk f' (List.mem_cons_of_mem f hf'))
    · obtain ⟨w, hw, hwpres, _⟩ := specCanon_good f.type g hcf (objGet o f.key)
      obtain ⟨o', ho', hpres, hframe⟩ := ih (objSetOpt o f.key w)
      refine ⟨o', ?_, ?_, ?_⟩
      · rw [canonPhase_cons_some _ _ _ _ _ hcf, hw]
        exact ho'
      · intro k
        rw [hpres k, objGet_objSetOpt]
        by_cases hk : f.key = k
        · rw [if_pos hk, ← hk, hwpres]
        · rw [if_neg hk]
      · intro k hk
        rw [hframe k (fun f' hf' => hk f' (List.mem_cons_of_mem f hf')),
          objGet_objSetOpt, if_neg (fun he => hk f (List.mem_cons_self f rest) he.symm)]

theorem canonPhase_spec_idem (fds : List FieldDef) (o o' : JObj)
    (H1 : (fds.map (fun f => f.key)).Nodup)
    (h : canonPhase specCanonicalizers fds o = Except.ok o') :
    canonPhase specCanonicalizers fds o' = Except.ok o' := by
  induction fds generalizing o with
  | nil =>
    rw [canonPhase_nil] at h
    cases h
    exact canonPhase_nil _ _
  | cons f rest ih =>
    have H1t : (rest.map (fun f => f.key)).Nodup := (List.nodup_cons.mp H1).2
    rcases hcf : canonFor specCanonicalizers f.type with _ | g
    · rw [canonPhase_cons_none _ _ _ _ hcf] at h ⊢
      exact ih o H1t h
    · rw [canonPhase_cons_some _ _ _ _ _ hcf] at h ⊢
      obtain ⟨w, hw, hwpres, hfix⟩ := specCanon_good f.type g hcf (objGet o f.key)
      rw [hw] at h
      have h2 : canonPhase specCanonicalizers rest (objSetOpt o f.key w) =
          Except.ok o' := h
      have hkframe : objGet o' f.key = w := by
        obtain ⟨o'', ho'', _, hframe⟩ := canonPhase_spec_ok rest (objSetOpt o f.key w)
        rw [ho''] at h2
        cases h2
        have hnk : ∀ f' ∈ rest, f.key ≠ f'.key := by
          intro f' hf' he
          apply (List.nodup_cons.mp H1).1
          show f.key ∈ List.map (fun f => f.key) rest
          rw [he]
          exact List.mem_map_of_mem _ hf'
        rw [hframe f.key hnk, objGet_objSetOpt, if_pos rfl]
      rw [hkframe, hfix]
      show canonPhase specCanonicalizers rest (objSetOpt o' f.key w) = Except.ok o'
      rw [objSetOpt_get_eq _ _ _ hkframe]
      exact ih (objSetOpt o f.key w) H1t h2

theorem moveAliases_id (fds : List FieldDef) (o : JObj)
    (h : ∀ f ∈ fds, aliasMoveFires o f = false) : moveAliases fds o = o := by
  induction fds with
  | nil => rfl
  | cons g rest ih =>
    show moveAliases rest (moveAliasStep o g) = o
    rw [moveAliasStep_of_not_fires o g (h g (List.mem_cons_self g rest))]
    exact ih (fun f hf => h f (List.mem_cons_of_mem g hf))

theorem isNone_congr_of_isSome {a b : Option JVal} (h : a.isSome = b.isSome) :
    a.isNone = b.isNone := by
  cases a <;> cases b <;> simp_all

/-- C9: with the spec-modelled canonicalizers, `normalizeEntryData` is
idempotent (under the registry's key-uniqueness invariant): the alias pass
finds nothing left to move in a canonical payload, and each canonicalizer's
output is its own fixpoint. -/
theorem c9_canonicalization_idempotent (fds : List FieldDef) (d : JObj)
    (hw : fdsWellFormed fds) :
    normalizeEntryData specCanonicalizers fds
        (normalizeEntryData specCanonicalizers fds d) =
      normalizeEntryData specCanonicalizers fds d := by
  obtain ⟨o1, h1, hpres, _⟩ := canonPhase_spec_ok fds (moveAliases fds d)
  have hnorm : normalizeEntryData specCanonicalizers fds d = o1 := by
    rw [normalizeEntryData, h1]
  rw [hnorm]
  have hfires : ∀ f ∈ fds, aliasMoveFires o1 f = false := by
    intro f hf
    have hchar := moveAliases_char fds d f hf hw
    have hequiv : aliasMoveFires o1 f =
        aliasMoveFires (moveAliases fds d) f := by
      rw [aliasMoveFires, aliasMoveFires, hpres (camelize f.key),
        isNone_congr_of_isSome (hpres f.key)]
    rw [hequiv]
    by_cases hcs : camelize f.key = f.key
    · rw [aliasMoveFires, hcs]
      cases objGet (moveAliases fds d) f.key <;> rfl
    · by_cases hfd : aliasMoveFires d f = true
      · rw [aliasMoveFires, hchar.2 hcs, if_pos hfd]
        rfl
      · have hfd' : aliasMoveFires d f = false := by
          cases hb : aliasMoveFires d f
          · rfl
          · exact absurd hb hfd
        rw [aliasMoveFires, hchar.2 hcs, hchar.1, if_neg hfd, if_neg hfd]
        rw [aliasMoveFires] at hfd'
        exact hfd'
  have hmv : moveAliases fds o1 = o1 := moveAliases_id fds o1 hfires
  have hcp : canonPhase specCanonicalizers fds o1 = Except.ok o1 :=
    canonPhase_spec_idem fds (moveAliases fds d) o1 hw.1 h1
  rw [normalizeEntryData, hmv, hcp]

/-- C9 witness: a two-field schema and an aliased payload. -/
theorem c9_canonicalization_idempotent_witness :
    fdsWellFormed [⟨"user_email", "email"⟩, ⟨"home_page", "url"⟩] ∧
    normalizeEntryData specCanonicalizers
        [⟨"user_email", "email"⟩, ⟨"home_page", "url"⟩]
        (normalizeEntryData specCanonicalizers
          [⟨"user_email", "email"⟩, ⟨"home_page", "url"⟩]
          [("userEmail", .vstr " a@b.c "), ("home_page", .vstr "x.com")]) =
      normalizeEntryData specCanonicalizers
        [⟨"user_email", "email"⟩, ⟨"home_page", "url"⟩]
        [("userEmail", .vstr " a@b.c "), ("home_page", .vstr "x.com")] :=
  ⟨by decide,
    c9_canonicalization_idempotent
      [⟨"user_email", "email"⟩, ⟨"home_page", "url"⟩]
      [("userEmail", .vstr " a@b.c "), ("home_page", .vstr "x.com")]
      (by decide)⟩

theorem renderTokensF_nil (data : Option JVal) (f : Nat) :
    renderTokensF data f [] = [] := by
  cases f <;> rfl

theorem renderTokensF_fuel (data : Option JVal) :
    ∀ (n : Nat) (l : List Char), l.length ≤ n →
      ∀ f₁ f₂, l.length ≤ f₁ → l.length ≤ f₂ →
        renderTokensF data f₁ l = renderTokensF data f₂ l := by
  intro n
  induction n with
  | zero =>
    intro l hl f₁ f₂ h₁ h₂
    have hl0 : l = [] := List.length_eq_zero.mp (Nat.le_zero.mp hl)
    subst hl0
    rw [renderTokensF_nil, renderTokensF_nil]
  | succ n ih =>
    intro l hl f₁ f₂ h₁ h₂
    cases l with
    | nil => rw [renderTokensF_nil, renderTokensF_nil]
    | cons c cs =>
      simp only [List.length_cons] at hl h₁ h₂
      obtain ⟨g₁, rfl⟩ : ∃ g, f₁ = g + 1 := ⟨f₁ - 1, by omega⟩
      obtain ⟨g₂, rfl⟩ : ∃ g, f₂ = g + 1 := ⟨f₂ - 1, by omega⟩
      rw [renderTokensF, renderTokensF]
      by_cases hc : c = '\x7b'
      · rw [if_pos hc, if_pos hc]
        rcases hdw : cs.dropWhile (fun d => d ≠ '\x7d') with _ | ⟨d, rest2⟩
        · rw [ih cs (by omega) g₁ g₂ (by omega) (by omega)]
        · have hlt := dropWhileConsLt hdw
          dsimp only
          by_cases htok : cs.takeWhile (fun d => d ≠ '\x7d') = []
          · rw [if_pos htok, if_pos htok,
              ih cs (by omega) g₁ g₂ (by omega) (by omega)]
          · rw [if_neg htok, if_neg htok,
              ih rest2 (by omega) g₁ g₂ (by omega) (by omega)]
      · rw [if_neg hc, if_neg hc, ih cs (by omega) g₁ g₂ (by omega) (by omega)]

theorem renderTokens_eq_f (data : Option JVal) (l : List Char) (f : Nat)
    (h : l.length ≤ f) : renderTokensF data f l = renderTokens data l :=
  renderTokensF_fuel data l.length l le_rfl f l.length h le_rfl

/-- A non-brace character is copied through the scan unchanged. -/
theorem renderTokens_cons_plain (data : Option JVal) (c : Char) (cs : List Char)
    (hc : c ≠ '\x7b') :
    renderTokens data (c :: cs) = c :: renderTokens data cs := by
  rw [renderTokens, show (c :: cs).length = cs.length + 1 from rfl,
    renderTokensF, if_neg hc]
  rfl

/-- A run of brace-free literal text is copied through the scan unchanged. -/
theorem renderTokens_lit_append (data : Option JVal) (l rest : List Char)
    (hl : ∀ c ∈ l, c ≠ '\x7b') :
    renderTokens data (l ++ rest) = l ++ renderTokens data rest := by
  induction l with
  | nil => rfl
  | cons c l ih =>
    rw [List.cons_append,
      renderTokens_cons_plain data c (l ++ rest) (hl c (List.mem_cons_self c l)),
      ih (fun d hd => hl d (List.mem_cons_of_mem c hd)), List.cons_append]

/-- A well-formed `{path}` token at the head of the scan renders its token and
the scan continues right after the closing brace. -/
theorem renderTokens_tok_append (data : Option JVal) (path rest : List Char)
    (hnb : ∀ c ∈ path, c ≠ '\x7d') (hne : path ≠ []) :
    renderTokens data ('\x7b' :: (path ++ '\x7d' :: rest)) =
      renderTok data path ++ renderTokens data rest := by
  have hp : ∀ c ∈ path, (fun d => decide (d ≠ '\x7d')) c = true := by
    intro c hc
    simpa using hnb c hc
  have hdw : (path ++ '\x7d' :: rest).dropWhile (fun d => d ≠ '\x7d') =
      '\x7d' :: rest := by
    rw [dropWhileAppendAll _ hp]
    rfl
  have htw : (path ++ '\x7d' :: rest).takeWhile (fun d => d ≠ '\x7d') = path := by
    rw [takeWhileAppendAll _ hp]
    simp [List.takeWhile_cons]
  have hlen : ('\x7b' :: (path ++ '\x7d' :: rest)).length =
      (path.length + rest.length + 1) + 1 := by
    simp
    omega
  rw [renderTokens, hlen, renderTokensF, if_pos rfl, hdw, htw]
  dsimp only
  rw [if_neg hne, renderTokens_eq_f data rest _ (by omega)]

/-- A template string decomposed as the regex engine sees it: literal text
(no opening brace, so it can never start a token) interleaved with
`{path}` tokens (a non-empty path with no closing brace). Every template is a
concatenation of such segments. -/
inductive TplPart where
  | lit : String → TplPart
  | tok : String → TplPart
deriving Repr, DecidableEq

def partWf : TplPart → Prop
  | .lit s => ∀ c ∈ s.toList, c ≠ '\x7b'
  | .tok p => p.toList ≠ [] ∧ ∀ c ∈ p.toList, c ≠ '\x7d'

instance (p : TplPart) : Decidable (partWf p) := by
  cases p <;> (unfold partWf; infer_instance)

/-- The concrete template text of a segment. -/
def partText : TplPart → String
  | .lit s => s
  | .tok p => "\x7b" ++ p ++ "\x7d"

def partsText : List TplPart → String
  | [] => ""
  | p :: rest => partText p ++ partsText rest

/-- The claim's substitution contract for one segment: literal text is kept,
a token is replaced by the pretty-inline rendering of the value reached by
walking its (trimmed) dotted path — the empty string when the path is
unresolvable. -/
def renderedPart (data : Option JVal) : TplPart → String
  | .lit s => s
  | .tok p => asPrettyInline (getByPath data (trimStr p))

def renderedParts (data : Option JVal) : List TplPart → String
  | [] => ""
  | p :: rest => renderedPart data p ++ renderedParts data rest

theorem toList_append (a b : String) : (a ++ b).toList = a.toList ++ b.toList :=
  String.data_append a b

theorem renderTok_toList (data : Option JVal) (p : String) :
    renderTok data p.toList = (asPrettyInline (getByPath data (trimStr p))).toList := by
  rw [renderTok]
  have hmk : String.mk p.toList = p := rfl
  rw [hmk]
  by_cases h : trimStr p = ""
  · rw [if_pos h, h]
    rw [getByPath, if_pos rfl]
    rfl
  · rw [if_neg h]

/-- The scan of a decomposed template is exactly the per-segment
substitution. -/
theorem renderTokens_parts (data : Option JVal) (parts : List TplPart)
    (hwf : ∀ p ∈ parts, partWf p) :
    renderTokens data (partsText parts).toList =
      (renderedParts data parts).toList := by
  induction parts with
  | nil => rfl
  | cons p rest ih =>
    have hwp := hwf p (List.mem_cons_self p rest)
    have ihr := ih (fun q hq => hwf q (List.mem_cons_of_mem p hq))
    cases p with
    | lit s =>
      rw [partsText, partText, toList_append,
        renderTokens_lit_append data _ _ hwp, ihr, renderedParts, renderedPart,
        toList_append]
    | tok q =>
      obtain ⟨hne, hnb⟩ := hwp
      have htl : (partsText (TplPart.tok q :: rest)).toList =
          '\x7b' :: (q.toList ++ '\x7d' :: (partsText rest).toList) := by
        rw [partsText, partText, toList_append, toList_append, toList_append]
        show ['\x7b'] ++ q.toList ++ ['\x7d'] ++ (partsText rest).toList = _
        simp
      rw [htl, renderTokens_tok_append data _ _ hnb hne, ihr, renderTok_toList,
        renderedParts, renderedPart, toList_append]

theorem allWs_of_trim_nil (l : List Char) (h : trimChars l = []) :
    ∀ c ∈ l, wsChar c = true := by
  rw [trimChars] at h
  have h2 : (l.dropWhile wsChar).reverse.dropWhile wsChar = [] := by
    have h3 := congrArg List.reverse h
    simpa using h3
  have h4 : ∀ c ∈ l.dropWhile wsChar, wsChar c = true := by
    intro c hc
    exact List.dropWhile_eq_nil_iff.mp h2 c (List.mem_reverse.mpr hc)
  intro c hc
  rw [← List.takeWhile_append_dropWhile wsChar l] at hc
  rcases List.mem_append.mp hc with h5 | h5
  · exact List.mem_takeWhile_imp h5
  · exact h4 c h5

theorem collapseWs_allWs (l : List Char) (h : ∀ c ∈ l, wsChar c = true) :
    collapseWs l = [] ∨ collapseWs l = [' '] := by
  induction l with
  | nil => exact Or.inl rfl
  | cons c cs ih =>
    cases cs with
    | nil =>
      right
      have hc := h c (List.mem_cons_self c [])
      rw [collapseWs, if_pos hc]
    | cons d cs' =>
      have hc := h c (List.mem_cons_self c (d :: cs'))
      have hd := h d (List.mem_cons_of_mem c (List.mem_cons_self d cs'))
      rw [collapseWs, if_pos (by rw [hc, hd]; rfl)]
      exact ih (fun e he => h e (List.mem_cons_of_mem c he))

theorem mem_partsText_of_mem_lit {s : String} {parts : List TplPart}
    (hmem : TplPart.lit s ∈ parts) {c : Char} (hc : c ∈ s.toList) :
    c ∈ (partsText parts).toList := by
  induction parts with
  | nil => cases hmem
  | cons p rest ih =>
    rw [partsText, toList_append]
    rcases List.mem_cons.mp hmem with he | hm
    · subst he
      exact List.mem_append.mpr (Or.inl hc)
    · exact List.mem_append.mpr (Or.inr (ih hm))

theorem renderedParts_allWs (data : Option JVal) (parts : List TplPart)
    (h : ∀ c ∈ (partsText parts).toList, wsChar c = true) :
    ∀ c ∈ (renderedParts data parts).toList, wsChar c = true := by
  induction parts with
  | nil => intro c hc; cases hc
  | cons p rest ih =>
    have hrest : ∀ c ∈ (partsText rest).toList, wsChar c = true := by
      intro c hc
      apply h
      rw [partsText, toList_append]
      exact List.mem_append.mpr (Or.inr hc)
    cases p with
    | lit s =>
      intro c hc
      rw [renderedParts, renderedPart, toList_append] at hc
      rcases List.mem_append.mp hc with h5 | h5
      · exact h c (mem_partsText_of_mem_lit (List.mem_cons_self _ rest) h5)
      · exact ih hrest c h5
    | tok q =>
      exfalso
      have hbrace : ('\x7b' : Char) ∈ (partsText (TplPart.tok q :: rest)).toList := by
        rw [partsText, partText, toList_append]
        apply List.mem_append.mpr
        left
        rw [toList_append]
        apply List.mem_append.mpr
        left
        rw [toList_append]
        exact List.mem_append.mpr (Or.inl (List.mem_singleton.mpr rfl))
      have := h _ hbrace
      cases this

/-- C7: for every template — an arbitrary interleaving of brace-free literal
text and well-formed `{dot.path}` tokens — `deriveTitleFromTemplate` replaces
each token by the pretty-inline rendering of the value reached by walking the
token's trimmed path, keeps literal text, and returns the concatenation with
whitespace runs collapsed and trimmed; an unresolvable path contributes the
empty string; and the `{name.first} {name.last}` scenario derives
"Ada Lovelace". -/
theorem c7_title_template (data : Option JVal) (parts : List TplPart)
    (hwf : ∀ p ∈ parts, partWf p) :
    (deriveTitleFromTemplate (some (partsText parts)) data =
        trimStr (String.mk (collapseWs (renderedParts data parts).toList))) ∧
    (∀ p : String, getByPath data (trimStr p) = none →
      renderedPart data (TplPart.tok p) = "") ∧
    deriveTitleFromTemplate (some "\x7bname.first\x7d \x7bname.last\x7d")
      (some (.vobj [("name",
        .vobj [("first", .vstr "Ada"), ("last", .vstr "Lovelace")])])) =
      "Ada Lovelace" := by
  refine ⟨?_, ?_, rfl⟩
  · rw [deriveTitleFromTemplate]
    simp only [Option.getD]
    by_cases h : trimStr (partsText parts) = ""
    · rw [if_pos h]
      have hall : ∀ c ∈ (partsText parts).toList, wsChar c = true := by
        apply allWs_of_trim_nil
        have h2 := congrArg String.toList h
        simpa using h2
      have hallr := renderedParts_allWs data parts hall
      rcases collapseWs_allWs _ hallr with hc | hc
      · rw [hc]
        rfl
      · rw [hc]
        rfl
    · rw [if_neg h, renderTokens_parts data parts hwf]
  · intro p hp
    rw [renderedPart, hp]
    rfl

/-- C7 witness: the Ada Lovelace template as a three-segment decomposition
(token, literal space, token), discharged through the theorem. -/
theorem c7_title_template_witness :
    (∀ p ∈ [TplPart.tok "name.first", TplPart.lit " ", TplPart.tok "name.last"],
      partWf p) ∧
    deriveTitleFromTemplate
        (some (partsText
          [TplPart.tok "name.first", TplPart.lit " ", TplPart.tok "name.last"]))
        (some (.vobj [("name",
          .vobj [("first", .vstr "Ada"), ("last", .vstr "Lovelace")])])) =
      trimStr (String.mk (collapseWs
        (renderedParts
          (some (.vobj [("name",
            .vobj [("first", .vstr "Ada"), ("last", .vstr "Lovelace")])]))
          [TplPart.tok "name.first", TplPart.lit " ",
            TplPart.tok "name.last"]).toList)) :=
  ⟨by decide,
    (c7_title_template
      (some (.vobj [("name",
        .vobj [("first", .vstr "Ada"), ("last", .vstr "Lovelace")])]))
      [TplPart.tok "name.first", TplPart.lit " ", TplPart.tok "name.last"]
      (by decide)).1⟩
